import Mathlib

/-!
Dictionary.cpp: sorted-vector dictionary, string interning, hash-collision checker.

A shallow embedding of `source/Dictionary.cpp`.

* A `const char *` argument is represented by its content: the bytes that precede
  the terminating NUL (`CStr`, every byte in `1..255`).
* A pointer returned by `Intern` is a `CharPtr`: the address of the pool node
  (its allocation number) together with the immutable content stored there.
* A `double` is represented by its bit pattern; the code only stores and returns
  such values, and `0.` is the all-zero pattern.
* `size_t` indices are natural numbers; a vector of 24-byte elements has fewer
  than `2^60` of them, so `low + high` cannot wrap.
* Reading a vector out of bounds is undefined behaviour in C++ and is reported
  here as `Fault.outOfBounds`; loops run on fuel and report `Fault.outOfFuel`
  when it is exhausted.
* The timing instrumentation in the two `Get` functions only prints and does not
  influence the value returned; it is left out.
-/

namespace DictionaryCpp

/-! ## Data model -/

/-- Content of a NUL-terminated character string: the bytes before the terminator. -/
def CStr : Type := { l : List Nat // ∀ b ∈ l, 0 < b ∧ b < 256 }

instance : DecidableEq CStr := fun a b =>
  if h : a.val = b.val then isTrue (Subtype.ext h) else isFalse (fun e => h (congrArg Subtype.val e))

/-- Byte-wise comparison of two byte strings as `strcmp` performs it: the first
position where the strings differ decides, the terminator reading as byte `0`. -/
def strcmpBytes : List Nat → List Nat → Int
  | [], [] => 0
  | [], b :: _ => (0 : Int) - (b : Int)
  | a :: _, [] => (a : Int) - (0 : Int)
  | a :: as, b :: bs => if a = b then strcmpBytes as bs else (a : Int) - (b : Int)

/-- The C library `strcmp` on string contents. -/
def strcmp (a b : CStr) : Int := strcmpBytes a.val b.val

/-- A pointer to interned storage: the node address and the content stored there. -/
structure CharPtr where
  addr : Nat
  content : CStr
deriving DecidableEq

/-- Modelled from the spec: `stringAndHash` (declared in `Dictionary.h`), an interned
string pointer paired with the hash computed once from the string content. -/
structure stringAndHash where
  str : CharPtr
  hash : Nat
deriving DecidableEq

/-- Accessor `stringAndHash::GetString()`. -/
def stringAndHash.GetString (s : stringAndHash) : CharPtr := s.str

/-- Accessor `stringAndHash::GetHash().Get()`. -/
def stringAndHash.GetHash (s : stringAndHash) : Nat := s.hash

/-- Modelled from the spec: the constructor `stringAndHash(const char *)` (declared in
`Dictionary.h`); the hash function itself is a parameter. -/
def stringAndHash.make (hashFn : CStr → Nat) (p : CharPtr) : stringAndHash :=
  { str := p, hash := hashFn p.content }

/-- A `double`, by bit pattern. -/
structure Double where
  bits : Nat
deriving DecidableEq

/-- The literal `0.`. -/
def Double.zero : Double := { bits := 0 }

/-- The storage of a `Dictionary`: `vector<pair<stringAndHash, double>>`. -/
abbrev Dictionary : Type := List (stringAndHash × Double)

/-- Ways in which the embedded code can leave defined behaviour. -/
inductive Fault where
  | outOfBounds
  | outOfFuel
deriving DecidableEq

deriving instance DecidableEq for Except

/-! ## String interning -/

/-- The function-local `static set<string> interned`, as the list of its nodes in
order of allocation; the position of a node stands for its address. -/
abbrev InternPool : Type := List CStr

/-- The function `Intern`: `interned.insert(key).first->c_str()`. An equal string
already in the set is returned; otherwise a new node is allocated. -/
def Intern (interned : InternPool) (key : CStr) : CharPtr × InternPool :=
  if key ∈ interned then
    ({ addr := interned.indexOf key, content := key }, interned)
  else
    ({ addr := interned.length, content := key }, interned ++ [key])

/-! ## Searching -/

/-- The loop of `Search(const HashWrapper, v)`: scan from `low` upwards. -/
def SearchHashLoop (key : Nat) (v : Dictionary) : Nat → Nat → Except Fault (Nat × Bool)
  | 0, _ => .error .outOfFuel
  | fuel + 1, low =>
    if low < v.length then
      match v[low]? with
      | none => .error .outOfBounds
      | some e =>
        if key = e.1.GetHash then .ok (low, true)
        else SearchHashLoop key v fuel (low + 1)
    else .ok (v.length, false)

/-- The specialisation `Search(const HashWrapper key, v)`: a linear find. -/
def SearchHash (key : Nat) (v : Dictionary) : Except Fault (Nat × Bool) :=
  SearchHashLoop key v (v.length + 1) 0

/-- The loop of `Search(const char *, v)` on the bounds `[low, high)`. -/
def SearchLoop (key : CStr) (v : Dictionary) : Nat → Nat → Nat → Except Fault (Nat × Bool)
  | 0, _, _ => .error .outOfFuel
  | fuel + 1, low, high =>
    if low ≠ high then
      let mid := (low + high) / 2
      match v[mid]? with
      | none => .error .outOfBounds
      | some e =>
        let cmp := strcmp key e.1.GetString.content
        if cmp = 0 then .ok (mid, true)
        else if cmp < 0 then SearchLoop key v fuel low mid
        else SearchLoop key v fuel (mid + 1) high
    else .ok (low, false)

/-- The specialisation `Search(const char *key, v)`: binary search on a sorted vector. -/
def Search (key : CStr) (v : Dictionary) : Except Fault (Nat × Bool) :=
  SearchLoop key v (v.length + 1) 0 v.length

/-! ## Dictionary operations -/

/-- The call `insert(begin() + pos, x)` on a vector. -/
def vectorInsert (v : Dictionary) (pos : Nat) (x : stringAndHash × Double) : Dictionary :=
  v.take pos ++ x :: v.drop pos

/-- The method `Dictionary::operator[](const char *key)`. The result is the intern pool and
the dictionary after the call, and the index of the entry whose value the
returned reference designates. -/
def operatorIndex (hashFn : CStr → Nat) (interned : InternPool) (d : Dictionary) (key : CStr) :
    Except Fault (InternPool × Dictionary × Nat) :=
  match Search key d with
  | .error f => .error f
  | .ok pos =>
    if pos.2 then
      if pos.1 < d.length then .ok (interned, d, pos.1) else .error .outOfBounds
    else
      if pos.1 ≤ d.length then
        let r := Intern interned key
        .ok (r.2, vectorInsert d pos.1 (stringAndHash.make hashFn r.1, Double.zero), pos.1)
      else .error .outOfBounds

/-- A store of `x` through a `double &` that designates the value of entry `i`. -/
def storeValue : Dictionary → Nat → Double → Dictionary
  | [], _, _ => []
  | e :: es, 0, x => (e.1, x) :: es
  | e :: es, i + 1, x => e :: storeValue es i x

/-- The statement `d[key] = x`: `operator[]` followed by a store through the
returned reference. -/
def assign (hashFn : CStr → Nat) (interned : InternPool) (d : Dictionary) (key : CStr)
    (x : Double) : Except Fault (InternPool × Dictionary) :=
  match operatorIndex hashFn interned d key with
  | .error f => .error f
  | .ok r => .ok (r.1, storeValue r.2.1 r.2.2 x)

/-- Successive calls `d[key]` for each key of a sequence, in order. -/
def indexAll (hashFn : CStr → Nat) :
    InternPool → Dictionary → List CStr → Except Fault (InternPool × Dictionary)
  | interned, d, [] => .ok (interned, d)
  | interned, d, key :: keys =>
    match operatorIndex hashFn interned d key with
    | .error f => .error f
    | .ok r => indexAll hashFn r.1 r.2.1 keys

/-- The method `Dictionary::Get(HashWrapper)`. -/
def GetHashed (hash_wr : Nat) (d : Dictionary) : Except Fault Double :=
  match SearchHash hash_wr d with
  | .error f => .error f
  | .ok pos =>
    if pos.2 then
      match d[pos.1]? with
      | none => .error .outOfBounds
      | some e => .ok e.2
    else .ok Double.zero

/-- The method `Dictionary::Get(const char *)`. -/
def Get (key : CStr) (d : Dictionary) : Except Fault Double :=
  match Search key d with
  | .error f => .error f
  | .ok pos =>
    if pos.2 then
      match d[pos.1]? with
      | none => .error .outOfBounds
      | some e => .ok e.2
    else .ok Double.zero

/-! ## Test data -/

/-- The string "a". -/
def str_a : CStr := ⟨[97], by decide⟩
/-- The string "g". -/
def str_g : CStr := ⟨[103], by decide⟩
/-- The string "m". -/
def str_m : CStr := ⟨[109], by decide⟩
/-- The string "z". -/
def str_z : CStr := ⟨[122], by decide⟩

/-- A toy hash used in examples: the sum of the bytes modulo 8. -/
def sumHash (s : CStr) : Nat := s.val.sum % 8

/-! ## Order on keys -/

/-- The key content of an entry, as `strcmp` reads it through `GetString()`. -/
def keyOf (e : stringAndHash × Double) : CStr := e.1.GetString.content

/-- Strict ascending order of the entries by key content under `strcmp`. -/
def StrictAsc (d : Dictionary) : Prop :=
  (d.map keyOf).Pairwise (fun a b => strcmp a b < 0)

/-! ## The binary search -/

/-- What a search that ran on the bounds `[low, high)` reports. -/
def SearchPost (key : CStr) (v : Dictionary) (low high : Nat) (r : Nat × Bool) : Prop :=
  low ≤ r.1 ∧ r.1 ≤ high ∧
  (r.2 = true → ∃ e, v[r.1]? = some e ∧ keyOf e = key) ∧
  (r.2 = false →
    (∀ j e, v[j]? = some e → j < r.1 → strcmp (keyOf e) key < 0) ∧
    (∀ j e, v[j]? = some e → r.1 ≤ j → strcmp key (keyOf e) < 0))

/-! ## Example dictionaries -/

instance (d : Dictionary) : Decidable (StrictAsc d) :=
  inferInstanceAs (Decidable ((d.map keyOf).Pairwise (fun a b => strcmp a b < 0)))

/-- The dictionary that holds "a", "m" and "z", interned in this order, with value `0.`. -/
def dict_amz : Dictionary :=
  [({ str := { addr := 0, content := str_a }, hash := 1 }, Double.zero),
   ({ str := { addr := 1, content := str_m }, hash := 5 }, Double.zero),
   ({ str := { addr := 2, content := str_z }, hash := 2 }, Double.zero)]

/-! ## The collision checker -/

/-- Modelled from the spec: `hash_comparator` (declared in `Dictionary.h`), the ordering
of the checker's set, which compares the stored hash values. -/
def hash_comparator (a b : stringAndHash) : Bool := decide (a.GetHash < b.GetHash)

/-- The call `collected_keys.insert(x)` on a `set<stringAndHash, hash_comparator>`, the set
being the list of its elements in ascending order. The result is the pair
`(it, inserted)`, as the element `it` points to and the flag, and the set after
the call. -/
def setInsert : List stringAndHash → stringAndHash → (stringAndHash × Bool) × List stringAndHash
  | [], x => ((x, true), [x])
  | c :: cs, x =>
    if hash_comparator x c then ((x, true), x :: c :: cs)
    else if hash_comparator c x then
      let r := setInsert cs x
      (r.1, c :: r.2)
    else ((c, false), c :: cs)

/-- A thrown `runtime_error`, with its message bytes. -/
structure runtime_error where
  what : List Nat
deriving DecidableEq

/-- The bytes of an ASCII string literal. -/
def literal (s : String) : List Nat := s.toList.map Char.toNat

/-- The message built at the `throw` in `AddKeysWhileChecking`. -/
def collisionMessage (first second : CStr) : List Nat :=
  literal "Found an hash collision of \x27" ++ first.val ++ literal "\x27 with \x27"
    ++ second.val ++ literal "\x27\n"
    ++ literal "Please try a different key or contact developers"

/-- The class `DictionaryCollisionChecker`, with its set of collected keys. -/
structure DictionaryCollisionChecker where
  collected_keys : List stringAndHash
deriving DecidableEq

/-- The loop of `AddKeysWhileChecking` over the elements of the dictionary. The
result is the set of collected keys when the function is left, and the exception
thrown, if any. -/
def addKeysLoop : List stringAndHash → Dictionary → List stringAndHash × Option runtime_error
  | collected_keys, [] => (collected_keys, none)
  | collected_keys, element :: rest =>
    let r := setInsert collected_keys element.1
    if !r.1.2 then
      if r.1.1.GetString.addr ≠ element.1.GetString.addr then
        (r.2, some (runtime_error.mk
          (collisionMessage r.1.1.GetString.content element.1.GetString.content)))
      else addKeysLoop r.2 rest
    else addKeysLoop r.2 rest

/-- The method `DictionaryCollisionChecker::AddKeysWhileChecking(dict)`. -/
def DictionaryCollisionChecker.AddKeysWhileChecking (self : DictionaryCollisionChecker)
    (dict : Dictionary) : DictionaryCollisionChecker × Option runtime_error :=
  let r := addKeysLoop self.collected_keys dict
  ({ collected_keys := r.1 }, r.2)

/-- The invariant of the checker's set: ascending by hash, so no hash occurs twice. -/
def HashSorted (s : List stringAndHash) : Prop :=
  s.Pairwise (fun a b => a.GetHash < b.GetHash)

/-- The pointer `p` was returned by `Intern` for a pool of which `interned` is the
current state: node `p.addr` holds the content of `p`. -/
def Interned (interned : InternPool) (p : CharPtr) : Prop :=
  interned[p.addr]? = some p.content

/-- The entry `e`, at index `n` of `d`, has the hash of a collected key or of an earlier
entry of `d`, and another string. -/
def CollidesAt (s : List stringAndHash) (d : Dictionary) (n : Nat)
    (e : stringAndHash × Double) : Prop :=
  (∃ c ∈ s, c.GetHash = e.1.GetHash ∧ c.GetString.content ≠ keyOf e) ∨
  (∃ (m : Nat) (e' : stringAndHash × Double), m < n ∧ d[m]? = some e' ∧
    e'.1.GetHash = e.1.GetHash ∧ keyOf e' ≠ keyOf e)

/-- Some entry of `d` collides with a collected key or with an earlier entry of `d`. -/
def Collides (s : List stringAndHash) (d : Dictionary) : Prop :=
  ∃ (n : Nat) (e : stringAndHash × Double), d[n]? = some e ∧ CollidesAt s d n e

/-- The strings `first` and `second` differ, `second` is the key of the first entry of
`d` that collides, and `first` is the string of a collected key, or of an
earlier entry of `d`, with the same hash. -/
def NamesCollision (s : List stringAndHash) (d : Dictionary) (first second : CStr) : Prop :=
  first ≠ second ∧
  ∃ (n : Nat) (e : stringAndHash × Double), d[n]? = some e ∧ keyOf e = second ∧
    ((∃ c ∈ s, c.GetHash = e.1.GetHash ∧ c.GetString.content = first) ∨
     (∃ (m : Nat) (e' : stringAndHash × Double), m < n ∧ d[m]? = some e' ∧
        e'.1.GetHash = e.1.GetHash ∧ keyOf e' = first)) ∧
    ∀ (k : Nat) (x : stringAndHash × Double), k < n → d[k]? = some x → ¬ CollidesAt s d k x

instance (interned : InternPool) (p : CharPtr) : Decidable (Interned interned p) :=
  inferInstanceAs (Decidable (interned[p.addr]? = some p.content))

instance (s : List stringAndHash) : Decidable (HashSorted s) :=
  inferInstanceAs (Decidable (s.Pairwise (fun (a b : stringAndHash) => a.GetHash < b.GetHash)))

/-- The string "i", which has the same `sumHash` as "a". -/
def str_i : CStr := ⟨[105], by decide⟩

/-- The dictionary that holds "a" and "i", interned in this order, hashed by `sumHash`. -/
def dict_ai : Dictionary :=
  [({ str := { addr := 0, content := str_a }, hash := 1 }, Double.zero),
   ({ str := { addr := 1, content := str_i }, hash := 1 }, Double.zero)]

/-- A sequence of calls of `Intern`, one for each string of `keys` in order: the
pointers returned and the pool after the last call. -/
def internAll : InternPool → List CStr → List CharPtr × InternPool
  | interned, [] => ([], interned)
  | interned, key :: keys =>
    let r := Intern interned key
    let rs := internAll r.2 keys
    (r.1 :: rs.1, rs.2)

/-- The string "abc". -/
def str_abc : CStr := ⟨[97, 98, 99], by decide⟩

/-! ## Iterations of the two search loops -/

/-- The iterations of the loop of `Search(const char *, v)`: the bounds `(low, high)`
with which each executed iteration starts; the iteration reads `v[(low + high) / 2]`. -/
def SearchLoopTrace (key : CStr) (v : Dictionary) : Nat → Nat → Nat → List (Nat × Nat)
  | 0, _, _ => []
  | fuel + 1, low, high =>
    if low ≠ high then
      let mid := (low + high) / 2
      (low, high) ::
        match v[mid]? with
        | none => []
        | some e =>
          let cmp := strcmp key e.1.GetString.content
          if cmp = 0 then []
          else if cmp < 0 then SearchLoopTrace key v fuel low mid
          else SearchLoopTrace key v fuel (mid + 1) high
    else []

/-- The iterations of the loop of `Search(const HashWrapper, v)`: the index `low` that
each executed iteration reads. -/
def SearchHashLoopTrace (key : Nat) (v : Dictionary) : Nat → Nat → List Nat
  | 0, _ => []
  | fuel + 1, low =>
    if low < v.length then
      low ::
        match v[low]? with
        | none => []
        | some e =>
          if key = e.1.GetHash then []
          else SearchHashLoopTrace key v fuel (low + 1)
    else []

/-- The entry is as `operator[]` creates it: it stores the hash of its key content and
the value `0.`. -/
def FreshEntry (hashFn : CStr → Nat) (e : stringAndHash × Double) : Prop :=
  e.1.GetHash = hashFn (keyOf e) ∧ e.2 = Double.zero

/-- What an entry shows apart from the address of its string: key content, stored
hash and value. -/
def entryView (e : stringAndHash × Double) : CStr × Nat × Double :=
  (keyOf e, e.1.GetHash, e.2)

/-- The string "q", which has the same `sumHash` as "a" and "i". -/
def str_q : CStr := ⟨[113], by decide⟩

/-- The dictionary after `d["a"] = 1`, `d["i"] = 2`, `d["q"] = 3` (values by bit pattern),
hashed by `sumHash`: three keys of equal hash. -/
def dict_aiq : Dictionary :=
  [({ str := { addr := 0, content := str_a }, hash := 1 }, { bits := 1 }),
   ({ str := { addr := 1, content := str_i }, hash := 1 }, { bits := 2 }),
   ({ str := { addr := 2, content := str_q }, hash := 1 }, { bits := 3 })]

/-- The key `y` belongs to an entry of `d` whose hash no collected key and no earlier
entry of `d` has: the insertion of `y` into the checker's set succeeds. -/
def HashNew (s : List stringAndHash) (d : Dictionary) (y : stringAndHash) : Prop :=
  ∃ (k : Nat) (x : stringAndHash × Double), d[k]? = some x ∧ x.1 = y ∧
    (∀ c ∈ s, c.GetHash ≠ y.GetHash) ∧
    ∀ (m : Nat) (e' : stringAndHash × Double), m < k → d[m]? = some e' →
      e'.1.GetHash ≠ y.GetHash

/-- An audit pass: `AddKeysWhileChecking` is called for each Dictionary in turn; an
exception leaves the pass, so the later Dictionaries are not fed. -/
def feedAll : DictionaryCollisionChecker → List Dictionary →
    DictionaryCollisionChecker × Option runtime_error
  | checker, [] => (checker, none)
  | checker, d :: ds =>
    match checker.AddKeysWhileChecking d with
    | (checker', none) => feedAll checker' ds
    | (checker', some err) => (checker', some err)

/-- A dictionary holding the single key "abc", hashed by `sumHash`. -/
def dict_abc : Dictionary :=
  [({ str := { addr := 0, content := str_abc }, hash := 6 }, Double.zero)]

/-- The dictionary that holds "a" and "i" when its keys are interned after those of
`dict_amz`, in the pool "a", "m", "z", "i". -/
def dict_ai_shared : Dictionary :=
  [({ str := { addr := 0, content := str_a }, hash := 1 }, Double.zero),
   ({ str := { addr := 3, content := str_i }, hash := 1 }, Double.zero)]

/-- Successive uses of `operator[]` on a dictionary, in order: for `(key, none)` the
call `d[key]` alone, for `(key, some x)` the assignment `d[key] = x`. -/
def runCalls (hashFn : CStr → Nat) :
    InternPool → Dictionary → List (CStr × Option Double) →
      Except Fault (InternPool × Dictionary)
  | interned, d, [] => .ok (interned, d)
  | interned, d, (key, none) :: calls =>
    match operatorIndex hashFn interned d key with
    | .error f => .error f
    | .ok r => runCalls hashFn r.1 r.2.1 calls
  | interned, d, (key, some x) :: calls =>
    match assign hashFn interned d key x with
    | .error f => .error f
    | .ok r => runCalls hashFn r.1 r.2 calls

/-- The dictionary after `d["a"] = 11`, `d["m"] = 12`, `d["z"] = 13` (values by bit
pattern), hashed by `sumHash`. -/
def dict_amz_values : Dictionary :=
  [({ str := { addr := 0, content := str_a }, hash := 1 }, { bits := 11 }),
   ({ str := { addr := 1, content := str_m }, hash := 5 }, { bits := 12 }),
   ({ str := { addr := 2, content := str_z }, hash := 2 }, { bits := 13 })]

/-! # Theorems -/

/-! ## Order on keys -/

theorem strcmpBytes_self (a : List Nat) : strcmpBytes a a = 0 := by
  induction a with
  | nil => rfl
  | cons x xs ih => simp [strcmpBytes, ih]

theorem strcmpBytes_eq_zero (a b : List Nat) (ha : ∀ x ∈ a, 0 < x) (hb : ∀ x ∈ b, 0 < x)
    (h : strcmpBytes a b = 0) : a = b := by
  induction a generalizing b with
  | nil =>
    cases b with
    | nil => rfl
    | cons y ys =>
      have := hb y (List.mem_cons_self _ _)
      simp [strcmpBytes] at h
      omega
  | cons x xs ih =>
    cases b with
    | nil =>
      have := ha x (List.mem_cons_self _ _)
      simp [strcmpBytes] at h
      omega
    | cons y ys =>
      simp only [strcmpBytes] at h
      split at h
      · next hxy =>
        subst hxy
        rw [ih ys (fun z hz => ha z (List.mem_cons_of_mem _ hz))
          (fun z hz => hb z (List.mem_cons_of_mem _ hz)) h]
      · next hxy => omega

theorem strcmpBytes_antisymm (a b : List Nat) : strcmpBytes b a = - strcmpBytes a b := by
  induction a generalizing b with
  | nil =>
    cases b with
    | nil => rfl
    | cons y ys => simp [strcmpBytes]
  | cons x xs ih =>
    cases b with
    | nil => simp [strcmpBytes]
    | cons y ys =>
      simp only [strcmpBytes]
      by_cases hxy : x = y
      · subst hxy
        simp [ih]
      · have hyx : ¬ y = x := fun e => hxy e.symm
        simp only [hxy, hyx, if_false]
        omega

theorem strcmpBytes_trans (a b c : List Nat) (hc : ∀ x ∈ c, 0 < x)
    (hab : strcmpBytes a b < 0) (hbc : strcmpBytes b c < 0) : strcmpBytes a c < 0 := by
  induction a generalizing b c with
  | nil =>
    cases c with
    | nil =>
      cases b with
      | nil => simp [strcmpBytes] at hab
      | cons y ys => simp [strcmpBytes] at hbc; omega
    | cons z zs =>
      have := hc z (List.mem_cons_self _ _)
      simp [strcmpBytes]
      omega
  | cons x xs ih =>
    cases b with
    | nil => simp [strcmpBytes] at hab; omega
    | cons y ys =>
      cases c with
      | nil => simp [strcmpBytes] at hbc; omega
      | cons z zs =>
        simp only [strcmpBytes] at hab hbc ⊢
        by_cases hxy : x = y
        · subst hxy
          by_cases hxz : x = z
          · subst hxz
            simp only [if_true] at hab hbc ⊢
            exact ih ys zs (fun w hw => hc w (List.mem_cons_of_mem _ hw)) hab hbc
          · simp only [hxz, if_false] at hbc ⊢
            exact hbc
        · simp only [hxy, if_false] at hab
          by_cases hyz : y = z
          · subst hyz
            simp only [hxy, if_false]
            exact hab
          · simp only [hyz, if_false] at hbc
            by_cases hxz : x = z
            · omega
            · simp only [hxz, if_false]
              omega

theorem strcmp_self (a : CStr) : strcmp a a = 0 := strcmpBytes_self a.val

theorem strcmp_eq_zero {a b : CStr} (h : strcmp a b = 0) : a = b :=
  Subtype.ext (strcmpBytes_eq_zero a.val b.val (fun x hx => (a.property x hx).1)
    (fun x hx => (b.property x hx).1) h)

theorem strcmp_eq_zero_iff (a b : CStr) : strcmp a b = 0 ↔ a = b :=
  ⟨strcmp_eq_zero, fun h => h ▸ strcmp_self a⟩

theorem strcmp_antisymm (a b : CStr) : strcmp b a = - strcmp a b :=
  strcmpBytes_antisymm a.val b.val

theorem strcmp_trans {a b c : CStr} (hab : strcmp a b < 0) (hbc : strcmp b c < 0) :
    strcmp a c < 0 :=
  strcmpBytes_trans a.val b.val c.val (fun x hx => (c.property x hx).1) hab hbc

theorem strcmp_ne_of_lt {a b : CStr} (h : strcmp a b < 0) : a ≠ b := by
  intro e
  subst e
  rw [strcmp_self] at h
  exact absurd h (by decide)

/-! ## The binary search -/

theorem StrictAsc.lt_of_lt {d : Dictionary} (hs : StrictAsc d) {i j : Nat}
    {a b : stringAndHash × Double} (hi : d[i]? = some a) (hj : d[j]? = some b) (hij : i < j) :
    strcmp (keyOf a) (keyOf b) < 0 := by
  unfold StrictAsc at hs
  rw [List.pairwise_map, List.pairwise_iff_getElem] at hs
  obtain ⟨hi', rfl⟩ := List.getElem?_eq_some.mp hi
  obtain ⟨hj', rfl⟩ := List.getElem?_eq_some.mp hj
  exact hs i j hi' hj' hij

/-- In a strictly ascending vector a key content occurs at one index at most. -/
theorem StrictAsc.index_unique {d : Dictionary} (hs : StrictAsc d) {i j : Nat}
    {a b : stringAndHash × Double} (hi : d[i]? = some a) (hj : d[j]? = some b)
    (hk : keyOf a = keyOf b) : i = j := by
  rcases Nat.lt_trichotomy i j with h | h | h
  · exact absurd hk (strcmp_ne_of_lt (hs.lt_of_lt hi hj h))
  · exact h
  · exact absurd hk.symm (strcmp_ne_of_lt (hs.lt_of_lt hj hi h))

theorem SearchLoop_spec (key : CStr) (v : Dictionary) (hs : StrictAsc v) :
    ∀ (fuel low high : Nat), low ≤ high → high ≤ v.length → high - low < fuel →
      (∀ j e, v[j]? = some e → j < low → strcmp (keyOf e) key < 0) →
      (∀ j e, v[j]? = some e → high ≤ j → strcmp key (keyOf e) < 0) →
      ∃ r, SearchLoop key v fuel low high = .ok r ∧ SearchPost key v low high r := by
  intro fuel
  induction fuel with
  | zero => intro low high _ _ hf; omega
  | succ fuel ih =>
    intro low high hlh hhv hf hlo hhi
    by_cases hne : low = high
    · subst hne
      refine ⟨(low, false), by simp [SearchLoop], le_refl _, le_refl _, ?_, ?_⟩
      · intro h; simp at h
      · intro _; exact ⟨hlo, hhi⟩
    · have hmid1 : low ≤ (low + high) / 2 := by omega
      have hmid2 : (low + high) / 2 < high := by omega
      have hmidlen : (low + high) / 2 < v.length := by omega
      obtain ⟨e, he⟩ : ∃ e, v[(low + high) / 2]? = some e :=
        ⟨v[(low + high) / 2], List.getElem?_eq_getElem hmidlen⟩
      by_cases hc0 : strcmp key (keyOf e) = 0
      · refine ⟨((low + high) / 2, true), ?_, hmid1, le_of_lt hmid2, ?_, ?_⟩
        · simp only [SearchLoop, he]
          simp only [keyOf] at hc0
          simp [hne, hc0]
        · intro _; exact ⟨e, he, (strcmp_eq_zero hc0).symm⟩
        · intro h; simp at h
      · by_cases hclt : strcmp key (keyOf e) < 0
        · have hhi' : ∀ j e', v[j]? = some e' → (low + high) / 2 ≤ j →
              strcmp key (keyOf e') < 0 := by
            intro j e' hj hmj
            rcases Nat.eq_or_lt_of_le hmj with h | h
            · rw [← h, he] at hj
              cases hj
              exact hclt
            · exact strcmp_trans hclt (hs.lt_of_lt he hj h)
          obtain ⟨r, hr, hp1, hp2, hp3, hp4⟩ :=
            ih low ((low + high) / 2) hmid1 (le_of_lt hmidlen) (by omega) hlo hhi'
          refine ⟨r, ?_, hp1, by omega, hp3, hp4⟩
          simp only [SearchLoop, he]
          simp only [keyOf] at hc0 hclt
          simp [hne, hc0, hclt, hr]
        · have hgt : strcmp (keyOf e) key < 0 := by
            rw [strcmp_antisymm key (keyOf e)]
            omega
          have hlo' : ∀ j e', v[j]? = some e' → j < (low + high) / 2 + 1 →
              strcmp (keyOf e') key < 0 := by
            intro j e' hj hmj
            rcases Nat.eq_or_lt_of_le (Nat.le_of_lt_succ hmj) with h | h
            · rw [h, he] at hj
              cases hj
              exact hgt
            · exact strcmp_trans (hs.lt_of_lt hj he h) hgt
          obtain ⟨r, hr, hp1, hp2, hp3, hp4⟩ :=
            ih ((low + high) / 2 + 1) high hmid2 hhv (by omega) hlo' hhi
          refine ⟨r, ?_, by omega, hp2, hp3, hp4⟩
          simp only [SearchLoop, he]
          simp only [keyOf] at hc0 hclt
          simp [hne, hc0, hclt, hr]

/-- On a strictly ascending vector the binary search returns, and reports either
the index of the key or its sorted insertion point. -/
theorem Search_spec (key : CStr) (v : Dictionary) (hs : StrictAsc v) :
    ∃ r, Search key v = .ok r ∧ SearchPost key v 0 v.length r := by
  apply SearchLoop_spec key v hs (v.length + 1) 0 v.length (Nat.zero_le _) (le_refl _) (by omega)
  · intro j e _ hj; omega
  · intro j e he hj
    have := (List.getElem?_eq_some.mp he).1
    omega

/-- The binary search on a strictly ascending vector, with the found flag tied to
the presence of the key. -/
theorem Search_full (key : CStr) (v : Dictionary) (hs : StrictAsc v) :
    ∃ i found, Search key v = .ok (i, found) ∧ i ≤ v.length ∧
      (found = true → ∃ e, v[i]? = some e ∧ keyOf e = key) ∧
      (found = false →
        (∀ j e, v[j]? = some e → j < i → strcmp (keyOf e) key < 0) ∧
        (∀ j e, v[j]? = some e → i ≤ j → strcmp key (keyOf e) < 0)) ∧
      (found = true ↔ ∃ e ∈ v, keyOf e = key) := by
  obtain ⟨⟨i, found⟩, hr, _, hle, ht, hf⟩ := Search_spec key v hs
  refine ⟨i, found, hr, hle, ht, hf, ?_, ?_⟩
  · intro h
    obtain ⟨e, he, hk⟩ := ht h
    exact ⟨e, List.mem_iff_getElem?.mpr ⟨i, he⟩, hk⟩
  · rintro ⟨e, hmem, hk⟩
    cases hfound : found with
    | true => rfl
    | false =>
      obtain ⟨j, hj⟩ := List.mem_iff_getElem?.mp hmem
      obtain ⟨hlo, hhi⟩ := hf hfound
      exfalso
      rcases Nat.lt_or_ge j i with h | h
      · have := hlo j e hj h
        rw [hk, strcmp_self] at this
        exact absurd this (by decide)
      · have := hhi j e hj h
        rw [hk, strcmp_self] at this
        exact absurd this (by decide)

theorem Intern_content (interned : InternPool) (key : CStr) :
    (Intern interned key).1.content = key := by
  unfold Intern
  split <;> rfl

theorem keyOf_make (hashFn : CStr → Nat) (interned : InternPool) (key : CStr) (x : Double) :
    keyOf (stringAndHash.make hashFn (Intern interned key).1, x) = key := by
  simp [keyOf, stringAndHash.make, stringAndHash.GetString, Intern_content]

theorem mem_take_index {d : Dictionary} {i : Nat} {e : stringAndHash × Double}
    (h : e ∈ d.take i) : ∃ j, j < i ∧ d[j]? = some e := by
  obtain ⟨n, hn⟩ := List.mem_iff_getElem?.mp h
  have hlt : n < (d.take i).length := (List.getElem?_eq_some.mp hn).1
  have hni : n < i := lt_of_lt_of_le hlt (List.length_take_le _ _)
  exact ⟨n, hni, by rw [← List.getElem?_take_of_lt hni]; exact hn⟩

theorem mem_drop_index {d : Dictionary} {i : Nat} {e : stringAndHash × Double}
    (h : e ∈ d.drop i) : ∃ j, i ≤ j ∧ d[j]? = some e := by
  obtain ⟨n, hn⟩ := List.mem_iff_getElem?.mp h
  rw [List.getElem?_drop] at hn
  exact ⟨i + n, Nat.le_add_right _ _, hn⟩

/-- Inserting a key at a position that separates the smaller keys from the larger
ones keeps the vector strictly ascending. -/
theorem StrictAsc.vectorInsert {d : Dictionary} (hs : StrictAsc d) (i : Nat)
    (x : stringAndHash × Double)
    (hlo : ∀ j e, d[j]? = some e → j < i → strcmp (keyOf e) (keyOf x) < 0)
    (hhi : ∀ j e, d[j]? = some e → i ≤ j → strcmp (keyOf x) (keyOf e) < 0) :
    StrictAsc (vectorInsert d i x) := by
  have hsplit : StrictAsc (d.take i ++ d.drop i) := by rw [List.take_append_drop]; exact hs
  unfold StrictAsc at hsplit ⊢
  unfold DictionaryCpp.vectorInsert
  rw [List.map_append, List.pairwise_append] at hsplit
  rw [List.map_append, List.map_cons, List.pairwise_append, List.pairwise_cons]
  obtain ⟨h1, h2, h3⟩ := hsplit
  refine ⟨h1, ⟨?_, h2⟩, ?_⟩
  · intro b hb
    obtain ⟨e, he, rfl⟩ := List.mem_map.mp hb
    obtain ⟨j, hj, hje⟩ := mem_drop_index he
    exact hhi j e hje hj
  · intro a ha b hb
    rcases List.mem_cons.mp hb with rfl | hb
    · obtain ⟨e, he, rfl⟩ := List.mem_map.mp ha
      obtain ⟨j, hj, hje⟩ := mem_take_index he
      exact hlo j e hje hj
    · exact h3 a ha b hb

/-- The two ways `operator[]` runs on a strictly ascending dictionary. -/
theorem operatorIndex_cases (hashFn : CStr → Nat) (interned : InternPool) (d : Dictionary)
    (key : CStr) (hs : StrictAsc d) :
    (∃ i e, Search key d = .ok (i, true) ∧ d[i]? = some e ∧ keyOf e = key ∧
      operatorIndex hashFn interned d key = .ok (interned, d, i)) ∨
    (∃ i, Search key d = .ok (i, false) ∧ i ≤ d.length ∧ (∀ e ∈ d, keyOf e ≠ key) ∧
      (∀ j e, d[j]? = some e → j < i → strcmp (keyOf e) key < 0) ∧
      (∀ j e, d[j]? = some e → i ≤ j → strcmp key (keyOf e) < 0) ∧
      operatorIndex hashFn interned d key =
        .ok ((Intern interned key).2,
          vectorInsert d i (stringAndHash.make hashFn (Intern interned key).1, Double.zero),
          i)) := by
  obtain ⟨i, found, hr, hle, ht, hf, hiff⟩ := Search_full key d hs
  cases found with
  | true =>
    left
    obtain ⟨e, he, hk⟩ := ht rfl
    have hlt : i < d.length := (List.getElem?_eq_some.mp he).1
    exact ⟨i, e, hr, he, hk, by simp [operatorIndex, hr, hlt]⟩
  | false =>
    right
    obtain ⟨hlo, hhi⟩ := hf rfl
    refine ⟨i, hr, hle, ?_, hlo, hhi, by simp [operatorIndex, hr, hle]⟩
    intro e he hk
    have := hiff.mpr ⟨e, he, hk⟩
    simp at this

/-- The method `operator[]` keeps a strictly ascending dictionary strictly ascending. -/
theorem operatorIndex_StrictAsc (hashFn : CStr → Nat) (interned : InternPool) (d : Dictionary)
    (key : CStr) (hs : StrictAsc d) :
    ∃ r, operatorIndex hashFn interned d key = .ok r ∧ StrictAsc r.2.1 := by
  rcases operatorIndex_cases hashFn interned d key hs with
    ⟨i, e, _, _, _, hop⟩ | ⟨i, _, _, _, hlo, hhi, hop⟩
  · exact ⟨_, hop, hs⟩
  · refine ⟨_, hop, hs.vectorInsert i _ ?_ ?_⟩
    · intro j e he hj
      rw [keyOf_make]
      exact hlo j e he hj
    · intro j e he hj
      rw [keyOf_make]
      exact hhi j e he hj

theorem indexAll_StrictAsc (hashFn : CStr → Nat) (keys : List CStr) :
    ∀ (interned : InternPool) (d : Dictionary), StrictAsc d →
      ∃ r, indexAll hashFn interned d keys = .ok r ∧ StrictAsc r.2 := by
  induction keys with
  | nil => intro interned d hs; exact ⟨_, rfl, hs⟩
  | cons k ks ih =>
    intro interned d hs
    obtain ⟨r, hr, hsr⟩ := operatorIndex_StrictAsc hashFn interned d k hs
    obtain ⟨r2, hr2, hs2⟩ := ih r.1 r.2.1 hsr
    exact ⟨r2, by simp [indexAll, hr, hr2], hs2⟩

theorem StrictAsc_nil : StrictAsc [] := by
  simp [StrictAsc]

/-! ## Reading by string -/

/-- The string lookup of a key stored in a strictly ascending dictionary returns
the value stored with it. -/
theorem Get_of_entry {d : Dictionary} (hs : StrictAsc d) {i : Nat}
    {e : stringAndHash × Double} (he : d[i]? = some e) : Get (keyOf e) d = .ok e.2 := by
  obtain ⟨i', found, hr, _, ht, _, hiff⟩ := Search_full (keyOf e) d hs
  have hfound : found = true := hiff.mpr ⟨e, List.mem_iff_getElem?.mpr ⟨i, he⟩, rfl⟩
  subst hfound
  obtain ⟨e', he', hk⟩ := ht rfl
  have hii : i' = i := hs.index_unique he' he hk
  subst hii
  rw [he] at he'
  cases he'
  simp [Get, hr, he]

/-- The string lookup of a key that no entry holds returns `0.`. -/
theorem Get_absent {d : Dictionary} (hs : StrictAsc d) {key : CStr}
    (habs : ∀ e ∈ d, keyOf e ≠ key) : Get key d = .ok Double.zero := by
  obtain ⟨i, found, hr, _, _, _, hiff⟩ := Search_full key d hs
  cases found with
  | true =>
    obtain ⟨e, he, hk⟩ := hiff.mp rfl
    exact absurd hk (habs e he)
  | false => simp [Get, hr]

theorem storeValue_keys (d : Dictionary) (i : Nat) (x : Double) :
    (storeValue d i x).map keyOf = d.map keyOf := by
  induction d generalizing i with
  | nil => rfl
  | cons e es ih =>
    cases i with
    | zero => simp [storeValue, keyOf]
    | succ i => simp [storeValue, ih]

theorem storeValue_getElem?_self (d : Dictionary) (i : Nat) (x : Double)
    {e : stringAndHash × Double} (he : d[i]? = some e) :
    (storeValue d i x)[i]? = some (e.1, x) := by
  induction d generalizing i with
  | nil => simp at he
  | cons a as ih =>
    cases i with
    | zero =>
      simp at he
      subst he
      simp [storeValue]
    | succ i =>
      simp at he
      simp [storeValue, ih i he]

theorem storeValue_getElem?_other (d : Dictionary) (i j : Nat) (x : Double) (hij : j ≠ i) :
    (storeValue d i x)[j]? = d[j]? := by
  induction d generalizing i j with
  | nil => simp [storeValue]
  | cons a as ih =>
    cases i with
    | zero =>
      cases j with
      | zero => exact absurd rfl hij
      | succ j => simp [storeValue]
    | succ i =>
      cases j with
      | zero => simp [storeValue]
      | succ j => simp [storeValue, ih i j (fun h => hij (by rw [h]))]

theorem StrictAsc.storeValue {d : Dictionary} (hs : StrictAsc d) (i : Nat) (x : Double) :
    StrictAsc (storeValue d i x) := by
  unfold StrictAsc
  rw [storeValue_keys]
  exact hs

theorem vectorInsert_length (d : Dictionary) (i : Nat) (x : stringAndHash × Double)
    (hi : i ≤ d.length) : (vectorInsert d i x).length = d.length + 1 := by
  simp [vectorInsert, List.length_take, List.length_drop]
  omega

theorem vectorInsert_getElem?_lt (d : Dictionary) (i j : Nat) (x : stringAndHash × Double)
    (hi : i ≤ d.length) (hj : j < i) : (vectorInsert d i x)[j]? = d[j]? := by
  unfold vectorInsert
  rw [List.getElem?_append_left (by rw [List.length_take]; omega)]
  exact List.getElem?_take_of_lt hj

theorem vectorInsert_getElem?_self (d : Dictionary) (i : Nat) (x : stringAndHash × Double)
    (hi : i ≤ d.length) : (vectorInsert d i x)[i]? = some x := by
  unfold vectorInsert
  rw [List.getElem?_append_right (by rw [List.length_take]; omega)]
  simp [List.length_take, Nat.min_eq_left hi]

theorem vectorInsert_getElem?_ge (d : Dictionary) (i j : Nat) (x : stringAndHash × Double)
    (hi : i ≤ d.length) (hj : i ≤ j) : (vectorInsert d i x)[j + 1]? = d[j]? := by
  unfold vectorInsert
  rw [List.getElem?_append_right (by rw [List.length_take]; omega)]
  rw [List.length_take, Nat.min_eq_left hi]
  have : j + 1 - i = (j - i) + 1 := by omega
  rw [this, List.getElem?_cons_succ, List.getElem?_drop]
  congr 1
  omega

/-- After `d[key] = x` the entry that the reference designated holds `key` and `x`,
and the dictionary is still strictly ascending. -/
theorem assign_spec (hashFn : CStr → Nat) (interned : InternPool) (d : Dictionary)
    (key : CStr) (x : Double) (hs : StrictAsc d) :
    ∃ r i e, operatorIndex hashFn interned d key = .ok r ∧ r.2.2 = i ∧
      r.2.1[i]? = some e ∧ keyOf e = key ∧ StrictAsc r.2.1 ∧
      assign hashFn interned d key x = .ok (r.1, storeValue r.2.1 i x) := by
  obtain ⟨r, hr, hsr⟩ := operatorIndex_StrictAsc hashFn interned d key hs
  rcases operatorIndex_cases hashFn interned d key hs with
    ⟨i, e, _, he, hk, hop⟩ | ⟨i, _, hle, _, _, _, hop⟩
  · rw [hop] at hr
    cases hr
    exact ⟨_, i, e, hop, rfl, he, hk, hs, by simp [assign, hop]⟩
  · rw [hop] at hr
    cases hr
    exact ⟨_, i, _, hop, rfl, vectorInsert_getElem?_self d i _ hle, keyOf_make _ _ _ _, hsr,
      by simp [assign, hop]⟩

/-! ## Reading by hash -/

theorem SearchHashLoop_found (key : Nat) (v : Dictionary) :
    ∀ (fuel low i : Nat) (e : stringAndHash × Double), low ≤ i → v[i]? = some e →
      e.1.GetHash = key →
      (∀ j e', v[j]? = some e' → low ≤ j → j < i → e'.1.GetHash ≠ key) →
      v.length - low < fuel → SearchHashLoop key v fuel low = .ok (i, true) := by
  intro fuel
  induction fuel with
  | zero => intro low i e _ _ _ _ hf; omega
  | succ fuel ih =>
    intro low i e hli he hk hfirst hf
    have hilen : i < v.length := (List.getElem?_eq_some.mp he).1
    have hlow : low < v.length := by omega
    rcases Nat.eq_or_lt_of_le hli with h | h
    · subst h
      simp [SearchHashLoop, hlow, he, hk]
    · obtain ⟨e0, he0⟩ : ∃ e0, v[low]? = some e0 := ⟨v[low], List.getElem?_eq_getElem hlow⟩
      have hne : ¬ key = e0.1.GetHash := fun h0 => hfirst low e0 he0 (le_refl _) h h0.symm
      have hrec := ih (low + 1) i e h he hk
        (fun j e' hj hlj hji => hfirst j e' hj (by omega) hji) (by omega)
      simp only [SearchHashLoop, he0]
      simp [hlow, hne, hrec]

theorem SearchHashLoop_none (key : Nat) (v : Dictionary) :
    ∀ (fuel low : Nat), (∀ j e', v[j]? = some e' → low ≤ j → e'.1.GetHash ≠ key) →
      v.length - low < fuel → SearchHashLoop key v fuel low = .ok (v.length, false) := by
  intro fuel
  induction fuel with
  | zero => intro low _ hf; omega
  | succ fuel ih =>
    intro low hnone hf
    by_cases hlow : low < v.length
    · obtain ⟨e0, he0⟩ : ∃ e0, v[low]? = some e0 := ⟨v[low], List.getElem?_eq_getElem hlow⟩
      have hne : ¬ key = e0.1.GetHash := fun h0 => hnone low e0 he0 (le_refl _) h0.symm
      have hrec := ih (low + 1) (fun j e' hj hlj => hnone j e' hj (by omega)) (by omega)
      simp only [SearchHashLoop, he0]
      simp [hlow, hne, hrec]
    · simp [SearchHashLoop, hlow]

/-- The hash lookup returns the value of the first entry whose stored hash matches. -/
theorem GetHashed_first (d : Dictionary) (h : Nat) (i : Nat) (e : stringAndHash × Double)
    (he : d[i]? = some e) (hk : e.1.GetHash = h)
    (hfirst : ∀ j e', d[j]? = some e' → j < i → e'.1.GetHash ≠ h) :
    GetHashed h d = .ok e.2 := by
  have hr := SearchHashLoop_found h d (d.length + 1) 0 i e (Nat.zero_le _) he hk
    (fun j e' hj _ hji => hfirst j e' hj hji) (by omega)
  simp [GetHashed, SearchHash, hr, he]

/-- The hash lookup returns `0.` when no stored hash matches. -/
theorem GetHashed_none (d : Dictionary) (h : Nat) (hnone : ∀ e ∈ d, e.1.GetHash ≠ h) :
    GetHashed h d = .ok Double.zero := by
  have hr := SearchHashLoop_none h d (d.length + 1) 0
    (fun j e' hj _ => hnone e' (List.mem_iff_getElem?.mpr ⟨j, hj⟩)) (by omega)
  simp [GetHashed, SearchHash, hr]

/-! ## Properties of the dictionary -/

/-- C1 (sort invariant): for every finite sequence of keys, starting from an empty
Dictionary and applying `operator[]` to each key in turn, every call returns and
after every single call (after the first `n` keys, for every `n`) the entries are
strictly ascending by key content under `strcmp`; in particular entries at two
different indices never have equal key content. -/
theorem operatorIndex_sort_invariant (hashFn : CStr → Nat) (interned : InternPool)
    (keys : List CStr) (n : Nat) :
    ∃ r, indexAll hashFn interned [] (keys.take n) = .ok r ∧ StrictAsc r.2 ∧
      ∀ (i j : Nat) (a b : stringAndHash × Double),
        r.2[i]? = some a → r.2[j]? = some b → i ≠ j → keyOf a ≠ keyOf b := by
  obtain ⟨r, hr, hs⟩ := indexAll_StrictAsc hashFn (keys.take n) interned [] StrictAsc_nil
  exact ⟨r, hr, hs, fun i j a b ha hb hij hk => hij (hs.index_unique ha hb hk)⟩

/-- C2 (write then read): for every Dictionary `d` whose entries are strictly
ascending by key content, every key `k` and every value `x`, the assignment
`d[k] = x` returns and afterwards `Get(k)` returns `x`, whether or not `k` was
present before. -/
theorem Get_after_assign (hashFn : CStr → Nat) (interned : InternPool) (d : Dictionary)
    (key : CStr) (x : Double) (hs : StrictAsc d) :
    ∃ r, assign hashFn interned d key x = .ok r ∧ Get key r.2 = .ok x := by
  obtain ⟨r, i, e, _, _, he, hk, hsr, hassign⟩ := assign_spec hashFn interned d key x hs
  refine ⟨_, hassign, ?_⟩
  have := Get_of_entry (hsr.storeValue i x) (storeValue_getElem?_self r.2.1 i x he)
  have hkey : keyOf (e.1, x) = key := hk
  rw [hkey] at this
  exact this

/-- Every dictionary built by uses of `operator[]`, with or without a store through the
returned reference, is strictly ascending. -/
theorem runCalls_StrictAsc (hashFn : CStr → Nat) (calls : List (CStr × Option Double)) :
    ∀ (interned : InternPool) (d : Dictionary), StrictAsc d →
      ∃ r, runCalls hashFn interned d calls = .ok r ∧ StrictAsc r.2 := by
  induction calls with
  | nil => intro interned d hs; exact ⟨_, rfl, hs⟩
  | cons c cs ih =>
    intro interned d hs
    obtain ⟨key, ox⟩ := c
    cases ox with
    | none =>
      obtain ⟨r, hr, hsr⟩ := operatorIndex_StrictAsc hashFn interned d key hs
      obtain ⟨r2, hr2, hs2⟩ := ih r.1 r.2.1 hsr
      exact ⟨r2, by simp [runCalls, hr, hr2], hs2⟩
    | some x =>
      obtain ⟨r, i, e, _, _, _, _, hsr, hassign⟩ := assign_spec hashFn interned d key x hs
      obtain ⟨r2, hr2, hs2⟩ := ih r.1 (storeValue r.2.1 i x) (hsr.storeValue i x)
      exact ⟨r2, by simp [runCalls, hassign, hr2], hs2⟩

/-- C3 (absent key reads zero): for every strictly ascending Dictionary `d`, whatever
values it stores, and every key `k` whose content equals no entry's key content,
`Get(k)` returns `0.`; every Dictionary built from the empty one by uses of
`operator[]` (calls `d[key]` and assignments `d[key] = x` in any sequence) is
such a Dictionary, so `Get(k)` returns `0.` on it for every absent `k`; and
`Get(k)` on the empty Dictionary returns `0.` for every `k`. -/
theorem Get_absent_key_zero (hashFn : CStr → Nat) (interned : InternPool)
    (calls : List (CStr × Option Double)) (k : CStr) :
    (∀ d : Dictionary, StrictAsc d → (∀ e ∈ d, keyOf e ≠ k) →
      Get k d = .ok Double.zero) ∧
    (∃ r, runCalls hashFn interned [] calls = .ok r ∧ StrictAsc r.2 ∧
      ((∀ e ∈ r.2, keyOf e ≠ k) → Get k r.2 = .ok Double.zero)) ∧
    Get k [] = .ok Double.zero := by
  obtain ⟨r, hr, hs⟩ := runCalls_StrictAsc hashFn calls interned [] StrictAsc_nil
  exact ⟨fun d hd habs => Get_absent hd habs, ⟨r, hr, hs, fun habs => Get_absent hs habs⟩, rfl⟩

/-- C4 (binary search postcondition): for every vector `v` strictly ascending by key
content and every key `k`, `Search(k, v)` returns a pair `(i, found)`; `found` is
true exactly when some entry has key content `k`, and then `i` is the index of
that entry (the only index that holds `k`); otherwise `i <= v.size()`, every entry
below `i` has key content less than `k`, every entry at `i` or above has key
content greater than `k`, and `i` is the only position with this property. -/
theorem Search_postcondition (v : Dictionary) (k : CStr) (hs : StrictAsc v) :
    ∃ i found, Search k v = .ok (i, found) ∧
      (found = true ↔ ∃ e ∈ v, keyOf e = k) ∧
      (found = true →
        (∃ e, v[i]? = some e ∧ keyOf e = k) ∧
        ∀ j e, v[j]? = some e → keyOf e = k → j = i) ∧
      (found = false →
        i ≤ v.length ∧
        (∀ j e, v[j]? = some e → j < i → strcmp (keyOf e) k < 0) ∧
        (∀ j e, v[j]? = some e → i ≤ j → strcmp (keyOf e) k > 0) ∧
        ∀ p, p ≤ v.length →
          (∀ j e, v[j]? = some e → j < p → strcmp (keyOf e) k < 0) →
          (∀ j e, v[j]? = some e → p ≤ j → strcmp (keyOf e) k > 0) → p = i) := by
  obtain ⟨i, found, hr, hle, ht, hf, hiff⟩ := Search_full k v hs
  refine ⟨i, found, hr, hiff, ?_, ?_⟩
  · intro h
    obtain ⟨e, he, hk⟩ := ht h
    exact ⟨⟨e, he, hk⟩, fun j e' hj hk' => hs.index_unique hj he (hk'.trans hk.symm)⟩
  · intro h
    obtain ⟨hlo, hhi⟩ := hf h
    have hhi' : ∀ j e, v[j]? = some e → i ≤ j → strcmp (keyOf e) k > 0 := by
      intro j e he hj
      have := hhi j e he hj
      rw [strcmp_antisymm k (keyOf e)]
      omega
    refine ⟨hle, hlo, hhi', ?_⟩
    intro p hp hplo hphi
    rcases Nat.lt_trichotomy p i with hlt | heq | hgt
    · have hpl : p < v.length := by omega
      have h1 := hlo p v[p] (List.getElem?_eq_getElem hpl) hlt
      have h2 := hphi p v[p] (List.getElem?_eq_getElem hpl) (le_refl _)
      omega
    · exact heq
    · have hil : i < v.length := by omega
      have h1 := hplo i v[i] (List.getElem?_eq_getElem hil) hgt
      have h2 := hhi' i v[i] (List.getElem?_eq_getElem hil) (le_refl _)
      omega

/-- C5 as stated fails: in the Dictionary holding exactly "a", "m", "z" the search for
"g" reports position 1, not position 2 (the position between index 1 and
index 2), and the entry at index 1, "m", is not less than "g". -/
theorem Search_g_not_between_1_and_2 :
    dict_amz.map keyOf = [str_a, str_m, str_z] ∧
    Search str_g dict_amz = .ok (1, false) ∧
    ¬ Search str_g dict_amz = .ok (2, false) ∧
    ∃ e, dict_amz[1]? = some e ∧ keyOf e = str_m ∧ ¬ strcmp (keyOf e) str_g < 0 := by
  refine ⟨by decide, by decide, by decide, _, rfl, by decide, by decide⟩

/-- C5 (amended): for a Dictionary holding exactly the keys "a", "m", "z", the string
search for "g" reports found=false and insertion point 1, which lies between
index 0 (the entry "a", less than "g") and index 1 (the entry "m", greater
than "g"). -/
theorem Search_g_between_0_and_1 (d : Dictionary)
    (hd : d.map keyOf = [str_a, str_m, str_z]) :
    Search str_g d = .ok (1, false) ∧
    ∃ e0 e1, d[0]? = some e0 ∧ d[1]? = some e1 ∧ keyOf e0 = str_a ∧ keyOf e1 = str_m ∧
      strcmp (keyOf e0) str_g < 0 ∧ strcmp str_g (keyOf e1) < 0 := by
  rcases d with _ | ⟨e0, _ | ⟨e1, _ | ⟨e2, _ | ⟨e3, es⟩⟩⟩⟩ <;>
    simp only [List.map_cons, List.map_nil, List.cons.injEq, and_true, and_false,
      reduceCtorEq] at hd
  · obtain ⟨h0, h1, h2⟩ := hd
    refine ⟨?_, e0, e1, rfl, rfl, h0, h1, by rw [h0]; decide, by rw [h1]; decide⟩
    have hm : strcmp str_g e1.1.GetString.content = -6 := by
      have : e1.1.GetString.content = str_m := h1
      rw [this]; decide
    have ha : strcmp str_g e0.1.GetString.content = 6 := by
      have : e0.1.GetString.content = str_a := h0
      rw [this]; decide
    simp [Search, SearchLoop, hm, ha]

/-- C6 (insertion of an absent key): for every strictly ascending Dictionary `d` and
key `k` not present, `operator[](k)` yields a Dictionary with exactly one more
entry; the new entry sits at the index `i` returned by `Search(k, d)`, has key
content `k` and value `0.`, the returned reference designates that entry, the
entries formerly at indices below `i` stay where they were and the entries
formerly at index `i` or above move up by one, each unchanged. -/
theorem operatorIndex_inserts_absent (hashFn : CStr → Nat) (interned : InternPool)
    (d : Dictionary) (k : CStr) (hs : StrictAsc d) (habs : ∀ e ∈ d, keyOf e ≠ k) :
    ∃ i pool d', Search k d = .ok (i, false) ∧
      operatorIndex hashFn interned d k = .ok (pool, d', i) ∧
      d'.length = d.length + 1 ∧
      (∃ e, d'[i]? = some e ∧ keyOf e = k ∧ e.2 = Double.zero) ∧
      (∀ j, j < i → d'[j]? = d[j]?) ∧
      (∀ j, i ≤ j → d'[j + 1]? = d[j]?) := by
  rcases operatorIndex_cases hashFn interned d k hs with
    ⟨i, e, _, he, hk, _⟩ | ⟨i, hr, hle, _, _, _, hop⟩
  · exact absurd hk (habs e (List.mem_iff_getElem?.mpr ⟨i, he⟩))
  · exact ⟨i, _, _, hr, hop, vectorInsert_length d i _ hle,
      ⟨_, vectorInsert_getElem?_self d i _ hle, keyOf_make _ _ _ _, rfl⟩,
      fun j hj => vectorInsert_getElem?_lt d i j _ hle hj,
      fun j hj => vectorInsert_getElem?_ge d i j _ hle hj⟩

/-- C7 (indexing an existing key does not insert): for every strictly ascending
Dictionary `d` and key `k` whose content equals the key content of some entry,
`operator[](k)` leaves the entry sequence and the intern pool unchanged and
returns a reference to the value of the entry whose key content equals `k`. -/
theorem operatorIndex_existing_unchanged (hashFn : CStr → Nat) (interned : InternPool)
    (d : Dictionary) (k : CStr) (hs : StrictAsc d) (hpres : ∃ e ∈ d, keyOf e = k) :
    ∃ i e, operatorIndex hashFn interned d k = .ok (interned, d, i) ∧
      d[i]? = some e ∧ keyOf e = k := by
  rcases operatorIndex_cases hashFn interned d k hs with
    ⟨i, e, _, he, hk, hop⟩ | ⟨i, _, _, habs, _, _, _⟩
  · exact ⟨i, e, hop, he, hk⟩
  · obtain ⟨e, he, hk⟩ := hpres
    exact absurd hk (habs e he)

/-- C8 (hash lookup is a first-match linear scan): for every Dictionary `d`, sorted or
not, and every hash value `h`, `Get(h)` returns the value of the entry with the
smallest index whose stored hash equals `h`, and returns `0.` when no entry has
stored hash `h`. -/
theorem GetHashed_first_match (d : Dictionary) (h : Nat) :
    (∀ (i : Nat) (e : stringAndHash × Double), d[i]? = some e → e.1.GetHash = h →
      (∀ (j : Nat) (e' : stringAndHash × Double), d[j]? = some e' → j < i →
        e'.1.GetHash ≠ h) →
      GetHashed h d = .ok e.2) ∧
    ((∀ e ∈ d, e.1.GetHash ≠ h) → GetHashed h d = .ok Double.zero) :=
  ⟨fun i e he hk hfirst => GetHashed_first d h i e he hk hfirst,
    fun hnone => GetHashed_none d h hnone⟩

/-- C9 (hash lookup agrees with string lookup when there is no collision): for every
strictly ascending Dictionary `d` in which every entry stores the hash of its key
content and no two entries with different key content have equal hash, and every
key `k` present in `d`, `Get(hash of k)` equals `Get(k)`, both being the value of
the one entry keyed `k`. -/
theorem GetHashed_eq_Get (hashFn : CStr → Nat) (d : Dictionary) (k : CStr)
    (hs : StrictAsc d) (hstored : ∀ e ∈ d, e.1.GetHash = hashFn (keyOf e))
    (hinj : ∀ a ∈ d, ∀ b ∈ d, keyOf a ≠ keyOf b → a.1.GetHash ≠ b.1.GetHash)
    (hpres : ∃ e ∈ d, keyOf e = k) :
    ∃ e ∈ d, keyOf e = k ∧ (∀ e' ∈ d, keyOf e' = k → e' = e) ∧
      GetHashed (hashFn k) d = .ok e.2 ∧ Get k d = .ok e.2 ∧
      GetHashed (hashFn k) d = Get k d := by
  obtain ⟨e, hmem, hk⟩ := hpres
  obtain ⟨i, he⟩ := List.mem_iff_getElem?.mp hmem
  have hget : Get k d = .ok e.2 := by
    have := Get_of_entry hs he
    rw [hk] at this
    exact this
  have hhash : GetHashed (hashFn k) d = .ok e.2 := by
    apply GetHashed_first d (hashFn k) i e he (by rw [hstored e hmem, hk])
    intro j e' hj hji hh
    have hmem' : e' ∈ d := List.mem_iff_getElem?.mpr ⟨j, hj⟩
    have hkk : keyOf e' = keyOf e := by
      by_contra hne
      exact hinj e' hmem' e hmem hne (by rw [hh, hstored e hmem, hk])
    have := hs.index_unique hj he hkk
    omega
  refine ⟨e, hmem, hk, ?_, hhash, hget, by rw [hhash, hget]⟩
  intro e' hmem' hk'
  obtain ⟨j, hj⟩ := List.mem_iff_getElem?.mp hmem'
  have hji : j = i := hs.index_unique hj he (hk'.trans hk.symm)
  subst hji
  rw [he] at hj
  cases hj
  rfl

/-! ## The collision checker -/

theorem Interned.addr_eq_iff {interned : InternPool} (hnd : interned.Nodup) {a b : CharPtr}
    (ha : Interned interned a) (hb : Interned interned b) :
    a.addr = b.addr ↔ a.content = b.content := by
  unfold Interned at ha hb
  constructor
  · intro h
    rw [h, hb] at ha
    exact (Option.some.inj ha).symm
  · intro h
    obtain ⟨hi, hai⟩ := List.getElem?_eq_some.mp ha
    obtain ⟨hj, hbj⟩ := List.getElem?_eq_some.mp hb
    exact (hnd.getElem_inj_iff).mp (by rw [hai, hbj, h])

theorem HashSorted.hash_unique {s : List stringAndHash} (hs : HashSorted s)
    {a b : stringAndHash} (ha : a ∈ s) (hb : b ∈ s) (h : a.GetHash = b.GetHash) : a = b := by
  by_contra hne
  have hp : s.Pairwise (fun x y => x.GetHash ≠ y.GetHash) :=
    List.Pairwise.imp (fun hxy => Nat.ne_of_lt hxy) hs
  exact List.Pairwise.forall (fun x y hxy => fun e => hxy e.symm) hp ha hb hne h

/-- The two outcomes of an insertion into the checker's set. -/
theorem setInsert_spec (s : List stringAndHash) (x : stringAndHash) (hs : HashSorted s) :
    (∃ c ∈ s, c.GetHash = x.GetHash ∧ setInsert s x = ((c, false), s)) ∨
    ((∀ c ∈ s, c.GetHash ≠ x.GetHash) ∧
      ∃ s', setInsert s x = ((x, true), s') ∧ HashSorted s' ∧
        (∀ y, y ∈ s' ↔ y ∈ s ∨ y = x)) := by
  induction s with
  | nil =>
    right
    refine ⟨by simp, [x], rfl, by simp [HashSorted], by simp⟩
  | cons c cs ih =>
    have hs' := hs
    unfold HashSorted at hs'
    rw [List.pairwise_cons] at hs'
    obtain ⟨hc, hcs⟩ := hs'
    by_cases hxc : x.GetHash < c.GetHash
    · right
      refine ⟨?_, x :: c :: cs, by simp [setInsert, hash_comparator, hxc], ?_, ?_⟩
      · intro y hy
        rcases List.mem_cons.mp hy with rfl | hy
        · omega
        · have := hc y hy
          omega
      · unfold HashSorted
        rw [List.pairwise_cons]
        refine ⟨?_, hs⟩
        intro y hy
        rcases List.mem_cons.mp hy with rfl | hy
        · exact hxc
        · exact lt_trans hxc (hc y hy)
      · intro y
        simp only [List.mem_cons]
        tauto
    · by_cases hcx : c.GetHash < x.GetHash
      · rcases ih hcs with ⟨c', hc', hh, hins⟩ | ⟨hnone, s', hins, hsorted, hmem⟩
        · left
          exact ⟨c', List.mem_cons_of_mem _ hc', hh,
            by simp [setInsert, hash_comparator, hxc, hcx, hins]⟩
        · right
          refine ⟨?_, c :: s', by simp [setInsert, hash_comparator, hxc, hcx, hins], ?_, ?_⟩
          · intro y hy
            rcases List.mem_cons.mp hy with rfl | hy
            · omega
            · exact hnone y hy
          · unfold HashSorted
            rw [List.pairwise_cons]
            refine ⟨?_, hsorted⟩
            intro y hy
            rcases (hmem y).mp hy with hy | rfl
            · exact hc y hy
            · exact hcx
          · intro y
            simp only [List.mem_cons, hmem]
            tauto
      · left
        exact ⟨c, List.mem_cons_self _ _, by omega, by simp [setInsert, hash_comparator, hxc, hcx]⟩

theorem CollidesAt.tail_same {s : List stringAndHash} {rest : Dictionary}
    {e x : stringAndHash × Double} {n : Nat} {c : stringAndHash} (hc : c ∈ s)
    (hh : c.GetHash = e.1.GetHash) (hcont : c.GetString.content = keyOf e)
    (h : CollidesAt s (e :: rest) (n + 1) x) : CollidesAt s rest n x := by
  rcases h with hleft | ⟨m, e', hm, he', hh', hne⟩
  · exact Or.inl hleft
  · cases m with
    | zero =>
      simp at he'
      subst he'
      exact Or.inl ⟨c, hc, hh.trans hh', by rw [hcont]; exact hne⟩
    | succ m =>
      simp at he'
      exact Or.inr ⟨m, e', by omega, he', hh', hne⟩

theorem CollidesAt.tail_inserted {s s' : List stringAndHash} {rest : Dictionary}
    {e x : stringAndHash × Double} {n : Nat} (hmem : ∀ y, y ∈ s' ↔ y ∈ s ∨ y = e.1)
    (h : CollidesAt s (e :: rest) (n + 1) x) : CollidesAt s' rest n x := by
  rcases h with ⟨c', hc', hh', hne⟩ | ⟨m, e', hm, he', hh', hne⟩
  · exact Or.inl ⟨c', (hmem c').mpr (Or.inl hc'), hh', hne⟩
  · cases m with
    | zero =>
      simp at he'
      subst he'
      exact Or.inl ⟨e.1, (hmem e.1).mpr (Or.inr rfl), hh', hne⟩
    | succ m =>
      simp at he'
      exact Or.inr ⟨m, e', by omega, he', hh', hne⟩

theorem CollidesAt.not_head_same {s : List stringAndHash} {rest : Dictionary}
    {e : stringAndHash × Double} (hs : HashSorted s) {c : stringAndHash} (hc : c ∈ s)
    (hh : c.GetHash = e.1.GetHash) (hcont : c.GetString.content = keyOf e) :
    ¬ CollidesAt s (e :: rest) 0 e := by
  rintro (⟨c', hc', hh', hne⟩ | ⟨m, _, hm, _⟩)
  · have : c' = c := hs.hash_unique hc' hc (hh'.trans hh.symm)
    subst this
    exact hne hcont
  · omega

theorem CollidesAt.not_head_inserted {s : List stringAndHash} {rest : Dictionary}
    {e : stringAndHash × Double} (hnone : ∀ c ∈ s, c.GetHash ≠ e.1.GetHash) :
    ¬ CollidesAt s (e :: rest) 0 e := by
  rintro (⟨c', hc', hh', _⟩ | ⟨m, _, hm, _⟩)
  · exact hnone c' hc' hh'
  · omega

theorem NamesCollision.cons_same {s : List stringAndHash} {rest : Dictionary}
    {first second : CStr} (e : stringAndHash × Double) (hs : HashSorted s)
    {c : stringAndHash} (hc : c ∈ s) (hh : c.GetHash = e.1.GetHash)
    (hcont : c.GetString.content = keyOf e)
    (h : NamesCollision s rest first second) : NamesCollision s (e :: rest) first second := by
  obtain ⟨hne, n, x, hx, hk, hcase, hmin⟩ := h
  refine ⟨hne, n + 1, x, by simpa using hx, hk, ?_, ?_⟩
  · rcases hcase with hc' | ⟨m, e', hm, he', hh', hk'⟩
    · exact Or.inl hc'
    · exact Or.inr ⟨m + 1, e', by omega, by simpa using he', hh', hk'⟩
  · intro k y hkn hy hcol
    cases k with
    | zero =>
      simp at hy
      subst hy
      exact CollidesAt.not_head_same hs hc hh hcont hcol
    | succ k =>
      simp at hy
      exact hmin k y (by omega) hy (CollidesAt.tail_same hc hh hcont hcol)

theorem NamesCollision.cons_inserted {s s' : List stringAndHash} {rest : Dictionary}
    {first second : CStr} (e : stringAndHash × Double)
    (hnone : ∀ c ∈ s, c.GetHash ≠ e.1.GetHash)
    (hmem : ∀ y, y ∈ s' ↔ y ∈ s ∨ y = e.1)
    (h : NamesCollision s' rest first second) : NamesCollision s (e :: rest) first second := by
  obtain ⟨hne, n, x, hx, hk, hcase, hmin⟩ := h
  refine ⟨hne, n + 1, x, by simpa using hx, hk, ?_, ?_⟩
  · rcases hcase with ⟨c, hc, hh, hcf⟩ | ⟨m, e', hm, he', hh, hk'⟩
    · rcases (hmem c).mp hc with hc | rfl
      · exact Or.inl ⟨c, hc, hh, hcf⟩
      · exact Or.inr ⟨0, e, by omega, List.getElem?_cons_zero, hh, hcf⟩
    · exact Or.inr ⟨m + 1, e', by omega, by simpa using he', hh, hk'⟩
  · intro k y hkn hy hcol
    cases k with
    | zero =>
      simp at hy
      subst hy
      exact CollidesAt.not_head_inserted hnone hcol
    | succ k =>
      simp at hy
      exact hmin k y (by omega) hy (CollidesAt.tail_inserted hmem hcol)

theorem Collides.rest_same {s : List stringAndHash} {rest : Dictionary}
    {e : stringAndHash × Double} (hs : HashSorted s) {c : stringAndHash} (hc : c ∈ s)
    (hh : c.GetHash = e.1.GetHash) (hcont : c.GetString.content = keyOf e)
    (h : Collides s (e :: rest)) : Collides s rest := by
  obtain ⟨n, x, hx, hcol⟩ := h
  cases n with
  | zero =>
    simp at hx
    subst hx
    exact absurd hcol (CollidesAt.not_head_same hs hc hh hcont)
  | succ n =>
    simp at hx
    exact ⟨n, x, hx, CollidesAt.tail_same hc hh hcont hcol⟩

theorem Collides.rest_inserted {s s' : List stringAndHash} {rest : Dictionary}
    {e : stringAndHash × Double} (hnone : ∀ c ∈ s, c.GetHash ≠ e.1.GetHash)
    (hmem : ∀ y, y ∈ s' ↔ y ∈ s ∨ y = e.1)
    (h : Collides s (e :: rest)) : Collides s' rest := by
  obtain ⟨n, x, hx, hcol⟩ := h
  cases n with
  | zero =>
    simp at hx
    subst hx
    exact absurd hcol (CollidesAt.not_head_inserted hnone)
  | succ n =>
    simp at hx
    exact ⟨n, x, hx, CollidesAt.tail_inserted hmem hcol⟩

/-- When the dictionary holds a collision, the loop throws, and the message names a
collision: the string held before first, the string met second. -/
theorem addKeysLoop_reports (interned : InternPool) (hnd : interned.Nodup) (d : Dictionary) :
    ∀ s : List stringAndHash, HashSorted s →
      (∀ c ∈ s, Interned interned c.GetString) →
      (∀ e ∈ d, Interned interned e.1.GetString) →
      Collides s d →
      ∃ first second, (addKeysLoop s d).2 = some (runtime_error.mk (collisionMessage first second))
        ∧ NamesCollision s d first second := by
  induction d with
  | nil =>
    intro s _ _ _ h
    obtain ⟨n, x, hx, _⟩ := h
    simp at hx
  | cons e rest ih =>
    intro s hs hsi hdi hcol
    have hei : Interned interned e.1.GetString := hdi e (List.mem_cons_self _ _)
    have hri : ∀ x ∈ rest, Interned interned x.1.GetString :=
      fun x hx => hdi x (List.mem_cons_of_mem _ hx)
    rcases setInsert_spec s e.1 hs with ⟨c, hc, hh, hins⟩ | ⟨hnone, s', hins, hs', hmem⟩
    · by_cases haddr : c.GetString.addr = e.1.GetString.addr
      · have hcont : c.GetString.content = keyOf e :=
          (Interned.addr_eq_iff hnd (hsi c hc) hei).mp haddr
        obtain ⟨first, second, hres, hnames⟩ :=
          ih s hs hsi hri (Collides.rest_same hs hc hh hcont hcol)
        refine ⟨first, second, ?_, hnames.cons_same e hs hc hh hcont⟩
        simp [addKeysLoop, hins, haddr, hres]
      · refine ⟨c.GetString.content, keyOf e, ?_, ?_, 0, e, List.getElem?_cons_zero, rfl,
          Or.inl ⟨c, hc, hh, rfl⟩, fun k _ hk => absurd hk (Nat.not_lt_zero k)⟩
        · simp [addKeysLoop, hins, haddr, keyOf]
        · intro hcont
          exact haddr ((Interned.addr_eq_iff hnd (hsi c hc) hei).mpr hcont)
    · have hsi' : ∀ c ∈ s', Interned interned c.GetString := by
        intro c hc
        rcases (hmem c).mp hc with hc | rfl
        · exact hsi c hc
        · exact hei
      obtain ⟨first, second, hres, hnames⟩ :=
        ih s' hs' hsi' hri (Collides.rest_inserted hnone hmem hcol)
      refine ⟨first, second, ?_, hnames.cons_inserted e hnone hmem⟩
      simp [addKeysLoop, hins, hres]

/-- C10 (collision detection): for every checker state and every Dictionary `d` (the
checker's set ascending by hash, all key strings interned in one pool), if some
entry of `d` has a hash equal to the hash of an already collected key or of an
earlier entry of `d` while its string differs from that key's string, then
`AddKeysWhileChecking(d)` throws a `runtime_error` whose message contains the two
colliding strings of the first entry of `d` that collides: first the string of
the key of that hash collected before (by an earlier call or from an earlier
entry of `d`), second the string of that entry; the two strings differ. -/
theorem AddKeysWhileChecking_detects_collision (interned : InternPool)
    (checker : DictionaryCollisionChecker) (d : Dictionary)
    (hnd : interned.Nodup) (hset : HashSorted checker.collected_keys)
    (hci : ∀ c ∈ checker.collected_keys, Interned interned c.GetString)
    (hdi : ∀ e ∈ d, Interned interned e.1.GetString)
    (hcol : ∃ (n : Nat) (e : stringAndHash × Double), d[n]? = some e ∧
      ((∃ c ∈ checker.collected_keys, c.GetHash = e.1.GetHash ∧
          c.GetString.content ≠ keyOf e) ∨
       (∃ (m : Nat) (e' : stringAndHash × Double), m < n ∧ d[m]? = some e' ∧
          e'.1.GetHash = e.1.GetHash ∧ keyOf e' ≠ keyOf e))) :
    ∃ first second : CStr,
      (checker.AddKeysWhileChecking d).2 =
        some (runtime_error.mk (collisionMessage first second)) ∧
      (∃ pre mid post : List Nat,
        collisionMessage first second = pre ++ first.val ++ mid ++ second.val ++ post) ∧
      first ≠ second ∧
      ∃ (n : Nat) (e : stringAndHash × Double), d[n]? = some e ∧ keyOf e = second ∧
        ((∃ c ∈ checker.collected_keys, c.GetHash = e.1.GetHash ∧
            c.GetString.content = first) ∨
         (∃ (m : Nat) (e' : stringAndHash × Double), m < n ∧ d[m]? = some e' ∧
            e'.1.GetHash = e.1.GetHash ∧ keyOf e' = first)) ∧
        ∀ (k : Nat) (x : stringAndHash × Double), k < n → d[k]? = some x →
          ¬ ((∃ c ∈ checker.collected_keys, c.GetHash = x.1.GetHash ∧
                c.GetString.content ≠ keyOf x) ∨
             (∃ (m : Nat) (e' : stringAndHash × Double), m < k ∧ d[m]? = some e' ∧
                e'.1.GetHash = x.1.GetHash ∧ keyOf e' ≠ keyOf x)) := by
  obtain ⟨first, second, hres, hne, hnames⟩ :=
    addKeysLoop_reports interned hnd d checker.collected_keys hset hci hdi hcol
  refine ⟨first, second, ?_, ?_, hne, hnames⟩
  · simp [DictionaryCollisionChecker.AddKeysWhileChecking, hres]
  · exact ⟨literal "Found an hash collision of \x27", literal "\x27 with \x27",
      literal "\x27\n" ++ literal "Please try a different key or contact developers",
      by simp only [collisionMessage, List.append_assoc]⟩

/-! ## Interned keys -/

/-- A call of `Intern` keeps the pool free of duplicates, returns a pointer into the
pool, and leaves every earlier pointer valid. -/
theorem Intern_spec (interned : InternPool) (key : CStr) (hnd : interned.Nodup) :
    (Intern interned key).2.Nodup ∧
    Interned (Intern interned key).2 (Intern interned key).1 ∧
    ∀ p, Interned interned p → Interned (Intern interned key).2 p := by
  unfold Intern
  by_cases hmem : key ∈ interned
  · simp only [hmem, if_true]
    exact ⟨hnd, List.getElem?_indexOf hmem, fun p hp => hp⟩
  · simp only [hmem, if_false]
    refine ⟨?_, ?_, ?_⟩
    · rw [List.nodup_append]
      refine ⟨hnd, List.nodup_singleton key, ?_⟩
      intro x hx hx'
      rw [List.mem_singleton] at hx'
      exact hmem (hx' ▸ hx)
    · unfold Interned
      simp
    · intro p hp
      unfold Interned at hp ⊢
      have hlt : p.addr < interned.length := (List.getElem?_eq_some.mp hp).1
      rw [List.getElem?_append_left hlt]
      exact hp

theorem mem_vectorInsert {d : Dictionary} {i : Nat} {x e : stringAndHash × Double}
    (h : e ∈ vectorInsert d i x) : e = x ∨ e ∈ d := by
  unfold vectorInsert at h
  rcases List.mem_append.mp h with h | h
  · exact Or.inr (List.mem_of_mem_take h)
  · rcases List.mem_cons.mp h with h | h
    · exact Or.inl h
    · exact Or.inr (List.mem_of_mem_drop h)

/-- The method `operator[]` keeps every key of the dictionary a pointer into the intern pool. -/
theorem operatorIndex_interned (hashFn : CStr → Nat) (interned : InternPool) (d : Dictionary)
    (key : CStr) (hs : StrictAsc d) (hnd : interned.Nodup)
    (hdi : ∀ e ∈ d, Interned interned e.1.GetString) :
    ∃ r, operatorIndex hashFn interned d key = .ok r ∧ r.1.Nodup ∧
      (∀ e ∈ r.2.1, Interned r.1 e.1.GetString) ∧
      ∀ p, Interned interned p → Interned r.1 p := by
  obtain ⟨hnd', hnew, hmono⟩ := Intern_spec interned key hnd
  rcases operatorIndex_cases hashFn interned d key hs with
    ⟨i, e, _, _, _, hop⟩ | ⟨i, _, _, _, _, _, hop⟩
  · exact ⟨_, hop, hnd, hdi, fun p hp => hp⟩
  · refine ⟨_, hop, hnd', ?_, hmono⟩
    intro e he
    rcases mem_vectorInsert he with rfl | he
    · exact hnew
    · exact hmono _ (hdi e he)

/-- Every dictionary built by `operator[]` calls holds pointers into the intern pool only. -/
theorem indexAll_interned (hashFn : CStr → Nat) (keys : List CStr) :
    ∀ (interned : InternPool) (d : Dictionary), StrictAsc d → interned.Nodup →
      (∀ e ∈ d, Interned interned e.1.GetString) →
      ∃ r, indexAll hashFn interned d keys = .ok r ∧ r.1.Nodup ∧
        (∀ e ∈ r.2, Interned r.1 e.1.GetString) ∧
        ∀ p, Interned interned p → Interned r.1 p := by
  induction keys with
  | nil => intro interned d _ hnd hdi; exact ⟨_, rfl, hnd, hdi, fun p hp => hp⟩
  | cons k ks ih =>
    intro interned d hs hnd hdi
    obtain ⟨r, hr, hnd', hdi', hmono⟩ := operatorIndex_interned hashFn interned d k hs hnd hdi
    obtain ⟨r0, hr0, hs0⟩ := operatorIndex_StrictAsc hashFn interned d k hs
    rw [hr] at hr0
    cases hr0
    obtain ⟨r2, hr2, hnd2, hdi2, hmono2⟩ := ih r.1 r.2.1 hs0 hnd' hdi'
    exact ⟨r2, by simp [indexAll, hr, hr2], hnd2, hdi2, fun p hp => hmono2 p (hmono p hp)⟩

/-! ## Instances of the properties on concrete dictionaries -/

theorem Get_after_assign_witness :
    StrictAsc dict_amz ∧
    (∃ r, assign sumHash [str_a, str_m, str_z] dict_amz str_g { bits := 7 } = .ok r ∧
      Get str_g r.2 = .ok { bits := 7 }) :=
  ⟨by decide, Get_after_assign sumHash [str_a, str_m, str_z] dict_amz str_g { bits := 7 }
    (by decide)⟩

theorem Get_absent_key_zero_witness :
    runCalls sumHash [] []
        [(str_a, some { bits := 11 }), (str_m, some { bits := 12 }),
          (str_z, some { bits := 13 })] =
      .ok ([str_a, str_m, str_z], dict_amz_values) ∧
    StrictAsc dict_amz_values ∧ (∀ e ∈ dict_amz_values, keyOf e ≠ str_g) ∧
    Get str_g dict_amz_values = .ok Double.zero ∧
    Get str_m dict_amz_values = .ok { bits := 12 } :=
  ⟨by decide, by decide, by decide,
    (Get_absent_key_zero sumHash [] [] str_g).1 dict_amz_values (by decide) (by decide),
    by decide⟩

theorem Search_postcondition_witness :
    StrictAsc dict_amz ∧
    ∃ i found, Search str_g dict_amz = .ok (i, found) ∧
      (found = true ↔ ∃ e ∈ dict_amz, keyOf e = str_g) :=
  ⟨by decide,
    match Search_postcondition dict_amz str_g (by decide) with
    | ⟨i, found, h1, h2, _⟩ => ⟨i, found, h1, h2⟩⟩

theorem Search_g_between_0_and_1_witness :
    dict_amz.map keyOf = [str_a, str_m, str_z] ∧ Search str_g dict_amz = .ok (1, false) :=
  ⟨by decide, (Search_g_between_0_and_1 dict_amz (by decide)).1⟩

theorem operatorIndex_inserts_absent_witness :
    StrictAsc dict_amz ∧ (∀ e ∈ dict_amz, keyOf e ≠ str_g) ∧
    ∃ i pool d', Search str_g dict_amz = .ok (i, false) ∧
      operatorIndex sumHash [str_a, str_m, str_z] dict_amz str_g = .ok (pool, d', i) ∧
      d'.length = dict_amz.length + 1 :=
  ⟨by decide, by decide,
    match operatorIndex_inserts_absent sumHash [str_a, str_m, str_z] dict_amz str_g
      (by decide) (by decide) with
    | ⟨i, pool, d', h1, h2, h3, _⟩ => ⟨i, pool, d', h1, h2, h3⟩⟩

theorem operatorIndex_existing_unchanged_witness :
    StrictAsc dict_amz ∧ (∃ e ∈ dict_amz, keyOf e = str_m) ∧
    ∃ i e, operatorIndex sumHash [str_a, str_m, str_z] dict_amz str_m =
        .ok ([str_a, str_m, str_z], dict_amz, i) ∧
      dict_amz[i]? = some e ∧ keyOf e = str_m :=
  ⟨by decide, by decide,
    operatorIndex_existing_unchanged sumHash [str_a, str_m, str_z] dict_amz str_m
      (by decide) (by decide)⟩

theorem GetHashed_first_match_witness :
    GetHashed 1 dict_ai = .ok Double.zero ∧ GetHashed 3 dict_ai = .ok Double.zero :=
  ⟨(GetHashed_first_match dict_ai 1).1 0 _ rfl rfl (fun j e' _ hj => absurd hj (by omega)),
    (GetHashed_first_match dict_ai 3).2 (by decide)⟩

theorem GetHashed_eq_Get_witness :
    StrictAsc dict_amz ∧ (∀ e ∈ dict_amz, e.1.GetHash = sumHash (keyOf e)) ∧
    (∀ a ∈ dict_amz, ∀ b ∈ dict_amz, keyOf a ≠ keyOf b → a.1.GetHash ≠ b.1.GetHash) ∧
    (∃ e ∈ dict_amz, keyOf e = str_m) ∧
    GetHashed (sumHash str_m) dict_amz = Get str_m dict_amz :=
  ⟨by decide, by decide, by decide, by decide,
    match GetHashed_eq_Get sumHash dict_amz str_m (by decide) (by decide) (by decide)
      (by decide) with
    | ⟨_, _, _, _, _, _, h⟩ => h⟩

theorem AddKeysWhileChecking_detects_collision_witness :
    [str_a, str_i].Nodup ∧ (∀ e ∈ dict_ai, Interned [str_a, str_i] e.1.GetString) ∧
    ∃ first second : CStr,
      (DictionaryCollisionChecker.AddKeysWhileChecking { collected_keys := [] } dict_ai).2 =
        some (runtime_error.mk (collisionMessage first second)) ∧ first ≠ second :=
  ⟨by decide, by decide,
    match AddKeysWhileChecking_detects_collision [str_a, str_i] { collected_keys := [] } dict_ai
      (by decide) (by decide) (by simp) (by decide)
      ⟨1, _, rfl, Or.inr ⟨0, _, by decide, rfl, rfl, by decide⟩⟩ with
    | ⟨first, second, h1, _, h3, _⟩ => ⟨first, second, h1, h3⟩⟩

/-! ## Canonical interning -/

/-- Interning a string a second time returns the same pointer and the same pool. -/
theorem Intern_again (interned : InternPool) (key : CStr) :
    Intern (Intern interned key).2 key = Intern interned key := by
  by_cases hmem : key ∈ interned
  · simp [Intern, hmem]
  · have hidx : List.indexOf key (interned ++ [key]) = interned.length := by
      rw [List.indexOf_append_of_not_mem hmem]
      simp
    simp [Intern, hmem, hidx]

/-- The pointers returned by a sequence of `Intern` calls all point into the final
pool, each holding the string it was requested for. -/
theorem internAll_spec (keys : List CStr) :
    ∀ (interned : InternPool), interned.Nodup →
      (internAll interned keys).2.Nodup ∧
      (∀ p, Interned interned p → Interned (internAll interned keys).2 p) ∧
      ∀ (i : Nat) (p : CharPtr), (internAll interned keys).1[i]? = some p →
        Interned (internAll interned keys).2 p ∧ keys[i]? = some p.content := by
  induction keys with
  | nil =>
    intro interned hnd
    exact ⟨hnd, fun p hp => hp, fun i p hp => by simp [internAll] at hp⟩
  | cons k ks ih =>
    intro interned hnd
    obtain ⟨hnd1, hnew, hmono⟩ := Intern_spec interned k hnd
    obtain ⟨hnd2, hmono2, hptrs⟩ := ih (Intern interned k).2 hnd1
    refine ⟨hnd2, fun p hp => hmono2 p (hmono p hp), ?_⟩
    intro i p hp
    cases i with
    | zero =>
      simp [internAll] at hp
      subst hp
      exact ⟨hmono2 _ hnew, by simp [Intern_content]⟩
    | succ i =>
      simp [internAll] at hp
      have := hptrs i p hp
      exact ⟨this.1, by simpa using this.2⟩

/-- C13 (interning is canonical): for every state of the intern pool, (1) in any
sequence of `Intern` calls the pointers returned by two of the calls, whatever
their order and whatever calls lie between them, are identity-equal exactly
when the two strings have equal content; (2) interning the same content a second
time returns the same pointer and leaves the pool unchanged; (3) the same key
inserted into two different Dictionaries yields identity-equal key strings. -/
theorem Intern_canonical (hashFn : CStr → Nat) (interned : InternPool)
    (hnd : interned.Nodup) :
    (∀ (calls : List CStr) (i j : Nat) (s t : CStr) (p q : CharPtr),
      calls[i]? = some s → calls[j]? = some t →
      (internAll interned calls).1[i]? = some p →
      (internAll interned calls).1[j]? = some q →
      p.content = s ∧ q.content = t ∧ (p.addr = q.addr ↔ s = t) ∧ (p = q ↔ s = t)) ∧
    (∀ s : CStr, Intern (Intern interned s).2 s = Intern interned s) ∧
    (∀ (d1 d2 : Dictionary) (k : CStr), StrictAsc d1 → StrictAsc d2 →
      (∀ e ∈ d1, Interned interned e.1.GetString) →
      (∀ e ∈ d2, Interned interned e.1.GetString) →
      ∃ r1 r2 e1 e2, operatorIndex hashFn interned d1 k = .ok r1 ∧
        operatorIndex hashFn r1.1 d2 k = .ok r2 ∧
        r1.2.1[r1.2.2]? = some e1 ∧ r2.2.1[r2.2.2]? = some e2 ∧
        keyOf e1 = k ∧ keyOf e2 = k ∧ e1.1.GetString = e2.1.GetString) := by
  refine ⟨?_, fun s => Intern_again interned s, ?_⟩
  · intro calls i j s t p q hs ht hp hq
    obtain ⟨hnd', _, hptrs⟩ := internAll_spec calls interned hnd
    obtain ⟨hpi, hpc⟩ := hptrs i p hp
    obtain ⟨hqi, hqc⟩ := hptrs j q hq
    rw [hs] at hpc
    rw [ht] at hqc
    have hps : p.content = s := (Option.some.inj hpc).symm
    have hqt : q.content = t := (Option.some.inj hqc).symm
    have hiff := Interned.addr_eq_iff hnd' hpi hqi
    rw [hps, hqt] at hiff
    refine ⟨hps, hqt, hiff, ?_⟩
    constructor
    · intro h
      rw [← hps, ← hqt, h]
    · intro h
      have haddr := hiff.mpr h
      cases p
      cases q
      simp only [CharPtr.mk.injEq]
      exact ⟨haddr, by simp only at hps hqt; rw [hps, hqt, h]⟩
  · intro d1 d2 k hs1 hs2 hi1 hi2
    obtain ⟨r1, hr1, hnd1, hd1, hmono1⟩ := operatorIndex_interned hashFn interned d1 k hs1 hnd hi1
    obtain ⟨r1', i1, e1, hr1', hi1', he1, hk1, _, _⟩ :=
      assign_spec hashFn interned d1 k Double.zero hs1
    rw [hr1] at hr1'
    cases hr1'
    obtain ⟨r2, hr2, hnd2, hd2, hmono2⟩ :=
      operatorIndex_interned hashFn r1.1 d2 k hs2 hnd1 (fun e he => hmono1 _ (hi2 e he))
    obtain ⟨r2', i2, e2, hr2', hi2', he2, hk2, _, _⟩ :=
      assign_spec hashFn r1.1 d2 k Double.zero hs2
    rw [hr2] at hr2'
    cases hr2'
    subst hi1'
    subst hi2'
    refine ⟨r1, r2, e1, e2, hr1, hr2, he1, he2, hk1, hk2, ?_⟩
    have h1 : Interned r2.1 e1.1.GetString :=
      hmono2 _ (hd1 e1 (List.mem_iff_getElem?.mpr ⟨_, he1⟩))
    have h2 : Interned r2.1 e2.1.GetString := hd2 e2 (List.mem_iff_getElem?.mpr ⟨_, he2⟩)
    have hcont : e1.1.GetString.content = e2.1.GetString.content := hk1.trans hk2.symm
    have haddr := (Interned.addr_eq_iff hnd2 h1 h2).mpr hcont
    generalize e1.1.GetString = p at haddr hcont
    generalize e2.1.GetString = q at haddr hcont
    cases p
    cases q
    simp only [CharPtr.mk.injEq]
    exact ⟨haddr, hcont⟩

theorem Intern_canonical_witness :
    ([] : InternPool).Nodup ∧
    ∃ r1 r2 e1 e2, operatorIndex sumHash [] [] str_abc = .ok r1 ∧
      operatorIndex sumHash r1.1 [] str_abc = .ok r2 ∧
      r1.2.1[r1.2.2]? = some e1 ∧ r2.2.1[r2.2.2]? = some e2 ∧
      keyOf e1 = str_abc ∧ keyOf e2 = str_abc ∧ e1.1.GetString = e2.1.GetString :=
  ⟨by decide, (Intern_canonical sumHash [] (by decide)).2.2 [] [] str_abc (by decide) (by decide)
    (by simp) (by simp)⟩

/-! ## Totality of the searches on arbitrary vectors -/

/-- On any vector, sorted or not, the binary search loop returns within `high - low`
iterations, and the position lies within the bounds. -/
theorem SearchLoop_total (key : CStr) (v : Dictionary) :
    ∀ (fuel low high : Nat), low ≤ high → high ≤ v.length → high - low < fuel →
      ∃ i found, SearchLoop key v fuel low high = .ok (i, found) ∧ low ≤ i ∧ i ≤ high ∧
        (found = true → i < high) := by
  intro fuel
  induction fuel with
  | zero => intro low high _ _ hf; omega
  | succ fuel ih =>
    intro low high hlh hhv hf
    by_cases hne : low = high
    · subst hne
      exact ⟨low, false, by simp [SearchLoop], le_refl _, le_refl _, by simp⟩
    · have hmidlen : (low + high) / 2 < v.length := by omega
      obtain ⟨e, he⟩ : ∃ e, v[(low + high) / 2]? = some e :=
        ⟨v[(low + high) / 2], List.getElem?_eq_getElem hmidlen⟩
      by_cases hc0 : strcmp key e.1.GetString.content = 0
      · exact ⟨(low + high) / 2, true, by simp [SearchLoop, he, hne, hc0], by omega, by omega,
          fun _ => by omega⟩
      · by_cases hclt : strcmp key e.1.GetString.content < 0
        · obtain ⟨i, found, hr, h1, h2, h3⟩ :=
            ih low ((low + high) / 2) (by omega) (by omega) (by omega)
          exact ⟨i, found, by simp [SearchLoop, he, hne, hc0, hclt, hr], h1, by omega,
            fun h => by have := h3 h; omega⟩
        · obtain ⟨i, found, hr, h1, h2, h3⟩ :=
            ih ((low + high) / 2 + 1) high (by omega) hhv (by omega)
          exact ⟨i, found, by simp [SearchLoop, he, hne, hc0, hclt, hr], by omega, h2, h3⟩

/-- More fuel does not change what the binary search loop returns. -/
theorem SearchLoop_fuel (key : CStr) (v : Dictionary) :
    ∀ (fuel low high : Nat) (r : Nat × Bool), SearchLoop key v fuel low high = .ok r →
      ∀ fuel', fuel ≤ fuel' → SearchLoop key v fuel' low high = .ok r := by
  intro fuel
  induction fuel with
  | zero => intro low high r h; simp [SearchLoop] at h
  | succ fuel ih =>
    intro low high r h fuel' hle
    obtain ⟨f, rfl⟩ : ∃ f, fuel' = f + 1 := ⟨fuel' - 1, by omega⟩
    have hf : fuel ≤ f := by omega
    by_cases hne : low = high
    · subst hne
      simp [SearchLoop] at h ⊢
      exact h
    · cases hv : v[(low + high) / 2]? with
      | none => simp [SearchLoop, hne, hv] at h
      | some e =>
        by_cases hc0 : strcmp key e.1.GetString.content = 0
        · simp [SearchLoop, hne, hv, hc0] at h ⊢
          exact h
        · by_cases hclt : strcmp key e.1.GetString.content < 0
          · simp only [SearchLoop, hv] at h ⊢
            simp [hne, hc0, hclt] at h ⊢
            exact ih _ _ r h f hf
          · simp only [SearchLoop, hv] at h ⊢
            simp [hne, hc0, hclt] at h ⊢
            exact ih _ _ r h f hf

/-- The iterations of the binary search: each starts with `low < high <= v.size()`,
there are at most `high - low` of them, and from one iteration to the next the
width `high - low` strictly decreases. -/
theorem SearchLoopTrace_spec (key : CStr) (v : Dictionary) :
    ∀ (fuel low high : Nat), low ≤ high → high ≤ v.length →
      (SearchLoopTrace key v fuel low high).length ≤ high - low ∧
      (∀ x ∈ SearchLoopTrace key v fuel low high, x.1 < x.2 ∧ x.2 ≤ v.length ∧
        x.2 - x.1 ≤ high - low) ∧
      (SearchLoopTrace key v fuel low high).Chain' (fun a b => b.2 - b.1 < a.2 - a.1) := by
  intro fuel
  induction fuel with
  | zero => intro low high _ _; simp [SearchLoopTrace]
  | succ fuel ih =>
    intro low high hlh hhv
    by_cases hne : low = high
    · subst hne
      simp [SearchLoopTrace]
    · have hmidlen : (low + high) / 2 < v.length := by omega
      obtain ⟨e, he⟩ : ∃ e, v[(low + high) / 2]? = some e :=
        ⟨v[(low + high) / 2], List.getElem?_eq_getElem hmidlen⟩
      have hhead : low < high ∧ high ≤ v.length ∧ high - low ≤ high - low :=
        ⟨by omega, hhv, le_refl _⟩
      by_cases hc0 : strcmp key e.1.GetString.content = 0
      · have ht : SearchLoopTrace key v (fuel + 1) low high = [(low, high)] := by
          simp [SearchLoopTrace, he, hne, hc0]
        rw [ht]
        refine ⟨by simp; omega, ?_, List.chain'_singleton _⟩
        intro x hx
        rw [List.mem_singleton] at hx
        subst hx
        exact hhead
      · by_cases hclt : strcmp key e.1.GetString.content < 0
        · obtain ⟨h1, h2, h3⟩ := ih low ((low + high) / 2) (by omega) (by omega)
          have ht : SearchLoopTrace key v (fuel + 1) low high =
              (low, high) :: SearchLoopTrace key v fuel low ((low + high) / 2) := by
            simp [SearchLoopTrace, he, hne, hc0, hclt]
          rw [ht]
          refine ⟨by simp; omega, ?_, ?_⟩
          · intro x hx
            rcases List.mem_cons.mp hx with rfl | hx
            · exact hhead
            · have := h2 x hx
              exact ⟨this.1, this.2.1, by omega⟩
          · rw [List.chain'_cons']
            refine ⟨?_, h3⟩
            intro y hy
            have := h2 y (List.mem_of_mem_head? hy)
            simp only
            omega
        · obtain ⟨h1, h2, h3⟩ := ih ((low + high) / 2 + 1) high (by omega) hhv
          have ht : SearchLoopTrace key v (fuel + 1) low high =
              (low, high) :: SearchLoopTrace key v fuel ((low + high) / 2 + 1) high := by
            simp [SearchLoopTrace, he, hne, hc0, hclt]
          rw [ht]
          refine ⟨by simp; omega, ?_, ?_⟩
          · intro x hx
            rcases List.mem_cons.mp hx with rfl | hx
            · exact hhead
            · have := h2 x hx
              exact ⟨this.1, this.2.1, by omega⟩
          · rw [List.chain'_cons']
            refine ⟨?_, h3⟩
            intro y hy
            have := h2 y (List.mem_of_mem_head? hy)
            simp only
            omega

/-- On any vector the hash scan returns, at a position within the vector. -/
theorem SearchHashLoop_total (key : Nat) (v : Dictionary) :
    ∀ (fuel low : Nat), v.length - low < fuel →
      ∃ i found, SearchHashLoop key v fuel low = .ok (i, found) ∧ i ≤ v.length ∧
        (found = true → i < v.length) := by
  intro fuel
  induction fuel with
  | zero => intro low hf; omega
  | succ fuel ih =>
    intro low hf
    by_cases hlow : low < v.length
    · obtain ⟨e, he⟩ : ∃ e, v[low]? = some e := ⟨v[low], List.getElem?_eq_getElem hlow⟩
      by_cases hk : key = e.1.GetHash
      · exact ⟨low, true, by simp [SearchHashLoop, hlow, he, hk], le_of_lt hlow, fun _ => hlow⟩
      · obtain ⟨i, found, hr, h1, h2⟩ := ih (low + 1) (by omega)
        refine ⟨i, found, ?_, h1, h2⟩
        simp only [SearchHashLoop, he]
        simp [hlow, hk, hr]
    · exact ⟨v.length, false, by simp [SearchHashLoop, hlow], le_refl _, by simp⟩

/-- The iterations of the hash scan: at most `v.size() - low`, each reading inside the vector. -/
theorem SearchHashLoopTrace_spec (key : Nat) (v : Dictionary) :
    ∀ (fuel low : Nat),
      (SearchHashLoopTrace key v fuel low).length ≤ v.length - low ∧
      ∀ j ∈ SearchHashLoopTrace key v fuel low, j < v.length := by
  intro fuel
  induction fuel with
  | zero => intro low; simp [SearchHashLoopTrace]
  | succ fuel ih =>
    intro low
    by_cases hlow : low < v.length
    · obtain ⟨e, he⟩ : ∃ e, v[low]? = some e := ⟨v[low], List.getElem?_eq_getElem hlow⟩
      by_cases hk : key = e.1.GetHash
      · have ht : SearchHashLoopTrace key v (fuel + 1) low = [low] := by
          simp [SearchHashLoopTrace, hlow, he, hk]
        rw [ht]
        exact ⟨by simp; omega, fun j hj => by rw [List.mem_singleton] at hj; omega⟩
      · have ht : SearchHashLoopTrace key v (fuel + 1) low =
            low :: SearchHashLoopTrace key v fuel (low + 1) := by
          simp only [SearchHashLoopTrace, he]
          simp [hlow, hk]
        obtain ⟨h1, h2⟩ := ih (low + 1)
        rw [ht]
        refine ⟨by simp; omega, ?_⟩
        intro j hj
        rcases List.mem_cons.mp hj with rfl | hj
        · exact hlow
        · exact h2 j hj
    · simp [SearchHashLoopTrace, hlow]

/-- On any vector the binary search returns a position inside the vector. -/
theorem Search_total (key : CStr) (v : Dictionary) :
    ∃ i found, Search key v = .ok (i, found) ∧ i ≤ v.length ∧ (found = true → i < v.length) := by
  obtain ⟨i, found, hr, _, h2, h3⟩ :=
    SearchLoop_total key v (v.length + 1) 0 v.length (Nat.zero_le _) (le_refl _) (by omega)
  exact ⟨i, found, hr, h2, h3⟩

theorem SearchHash_total (key : Nat) (v : Dictionary) :
    ∃ i found, SearchHash key v = .ok (i, found) ∧ i ≤ v.length ∧
      (found = true → i < v.length) :=
  SearchHashLoop_total key v (v.length + 1) 0 (by omega)

theorem Get_total (key : CStr) (v : Dictionary) : ∃ x, Get key v = .ok x := by
  obtain ⟨i, found, hr, _, hlt⟩ := Search_total key v
  cases found with
  | false => exact ⟨Double.zero, by simp [Get, hr]⟩
  | true =>
    have := hlt rfl
    exact ⟨v[i].2, by simp [Get, hr, List.getElem?_eq_getElem this]⟩

theorem GetHashed_total (h : Nat) (v : Dictionary) : ∃ x, GetHashed h v = .ok x := by
  obtain ⟨i, found, hr, _, hlt⟩ := SearchHash_total h v
  cases found with
  | false => exact ⟨Double.zero, by simp [GetHashed, hr]⟩
  | true =>
    have := hlt rfl
    exact ⟨v[i].2, by simp [GetHashed, hr, List.getElem?_eq_getElem this]⟩

/-- On any vector `operator[]` returns, and the reference it returns designates an
entry of the resulting vector. -/
theorem operatorIndex_total (hashFn : CStr → Nat) (interned : InternPool) (v : Dictionary)
    (key : CStr) :
    ∃ r, operatorIndex hashFn interned v key = .ok r ∧ r.2.2 < r.2.1.length := by
  obtain ⟨i, found, hr, hle, hlt⟩ := Search_total key v
  cases found with
  | true =>
    have := hlt rfl
    exact ⟨(interned, v, i), by simp [operatorIndex, hr, this], this⟩
  | false =>
    refine ⟨((Intern interned key).2,
      vectorInsert v i (stringAndHash.make hashFn (Intern interned key).1, Double.zero), i),
      by simp [operatorIndex, hr, hle], ?_⟩
    simp only
    rw [vectorInsert_length v i _ hle]
    omega

/-- More fuel does not change what the hash scan returns. -/
theorem SearchHashLoop_fuel (key : Nat) (v : Dictionary) :
    ∀ (fuel low : Nat) (r : Nat × Bool), SearchHashLoop key v fuel low = .ok r →
      ∀ fuel', fuel ≤ fuel' → SearchHashLoop key v fuel' low = .ok r := by
  intro fuel
  induction fuel with
  | zero => intro low r h; simp [SearchHashLoop] at h
  | succ fuel ih =>
    intro low r h fuel' hle
    obtain ⟨f, rfl⟩ : ∃ f, fuel' = f + 1 := ⟨fuel' - 1, by omega⟩
    have hf : fuel ≤ f := by omega
    by_cases hlow : low < v.length
    · cases hv : v[low]? with
      | none => simp [SearchHashLoop, hlow, hv] at h
      | some e =>
        by_cases hk : key = e.1.GetHash
        · simp [SearchHashLoop, hlow, hv, hk] at h ⊢
          exact h
        · simp only [SearchHashLoop, hv] at h ⊢
          simp [hlow, hk] at h ⊢
          exact ih _ r h f hf
    · simp [SearchHashLoop, hlow] at h ⊢
      exact h

/-- C14 (lookup and insert never fail): for every vector `v`, sorted or not, and every
key `k`, every index the string binary search reads is below `v.size()`, the
position it returns is at most `v.size()` and below `v.size()` when found is
true, so `Get` and `operator[]` return without an out-of-bounds access and the
reference `operator[]` returns designates an entry; likewise the hash scan only
reads indices below `v.size()`, and `Get(hash)` returns. -/
theorem lookup_and_insert_in_bounds (hashFn : CStr → Nat) (interned : InternPool)
    (v : Dictionary) (k : CStr) (h : Nat) :
    (∀ fuel, ∀ x ∈ SearchLoopTrace k v fuel 0 v.length, (x.1 + x.2) / 2 < v.length) ∧
    (∃ i found, Search k v = .ok (i, found) ∧ i ≤ v.length ∧
      (found = true → i < v.length)) ∧
    (∃ x, Get k v = .ok x) ∧
    (∃ r, operatorIndex hashFn interned v k = .ok r ∧ r.2.2 < r.2.1.length) ∧
    (∀ fuel, ∀ j ∈ SearchHashLoopTrace h v fuel 0, j < v.length) ∧
    (∃ i found, SearchHash h v = .ok (i, found) ∧ i ≤ v.length ∧
      (found = true → i < v.length)) ∧
    (∃ x, GetHashed h v = .ok x) := by
  refine ⟨?_, Search_total k v, Get_total k v, operatorIndex_total hashFn interned v k,
    fun fuel => (SearchHashLoopTrace_spec h v fuel 0).2, SearchHash_total h v,
    GetHashed_total h v⟩
  intro fuel x hx
  have := (SearchLoopTrace_spec k v fuel 0 v.length (Nat.zero_le _) (le_refl _)).2.1 x hx
  omega

/-- C16 (termination): for every vector `v`, sorted or not, and every key `k`, the
string binary search returns, with the same result for every larger supply of
fuel; every executed iteration starts with `low < high` and either new pair of
bounds is strictly narrower, the width strictly decreases from each iteration
to the next, and the loop runs at most `v.size()` iterations; the hash scan
returns after at most `v.size()` iterations. -/
theorem Search_terminates (v : Dictionary) (k : CStr) (h : Nat) :
    (∃ r, Search k v = .ok r) ∧
    (∀ fuel, v.length < fuel → SearchLoop k v fuel 0 v.length = Search k v) ∧
    (∀ fuel, (SearchLoopTrace k v fuel 0 v.length).length ≤ v.length) ∧
    (∀ fuel, ∀ x ∈ SearchLoopTrace k v fuel 0 v.length,
      x.1 < x.2 ∧ (x.1 + x.2) / 2 - x.1 < x.2 - x.1 ∧
      x.2 - ((x.1 + x.2) / 2 + 1) < x.2 - x.1) ∧
    (∀ fuel, (SearchLoopTrace k v fuel 0 v.length).Chain'
      (fun a b => b.2 - b.1 < a.2 - a.1)) ∧
    (∃ r, SearchHash h v = .ok r) ∧
    (∀ fuel, v.length < fuel → SearchHashLoop h v fuel 0 = SearchHash h v) ∧
    (∀ fuel, (SearchHashLoopTrace h v fuel 0).length ≤ v.length) := by
  obtain ⟨i, found, hr, _⟩ := Search_total k v
  obtain ⟨j, foundh, hrh, _⟩ := SearchHash_total h v
  refine ⟨⟨_, hr⟩, ?_, ?_, ?_, ?_, ⟨_, hrh⟩, ?_, ?_⟩
  · intro fuel hf
    rw [hr]
    exact SearchLoop_fuel k v (v.length + 1) 0 v.length _ hr fuel (by omega)
  · intro fuel
    have := (SearchLoopTrace_spec k v fuel 0 v.length (Nat.zero_le _) (le_refl _)).1
    omega
  · intro fuel x hx
    have := (SearchLoopTrace_spec k v fuel 0 v.length (Nat.zero_le _) (le_refl _)).2.1 x hx
    omega
  · intro fuel
    exact (SearchLoopTrace_spec k v fuel 0 v.length (Nat.zero_le _) (le_refl _)).2.2
  · intro fuel hf
    rw [hrh]
    exact SearchHashLoop_fuel h v (v.length + 1) 0 _ hrh fuel (by omega)
  · intro fuel
    have := (SearchHashLoopTrace_spec h v fuel 0).1
    omega

/-! ## Writes and other keys -/

theorem mem_vectorInsert_of_mem {d : Dictionary} {i : Nat} {x e : stringAndHash × Double}
    (h : e ∈ d) : e ∈ vectorInsert d i x := by
  unfold vectorInsert
  rw [← List.take_append_drop i d] at h
  rcases List.mem_append.mp h with h | h
  · exact List.mem_append.mpr (Or.inl h)
  · exact List.mem_append.mpr (Or.inr (List.mem_cons_of_mem _ h))

/-- Two strictly ascending dictionaries that hold the same value, or none, under a
key give the same string lookup for it. -/
theorem Get_eq_of_same_entry {d1 d2 : Dictionary} (hs1 : StrictAsc d1) (hs2 : StrictAsc d2)
    {k : CStr} (h12 : ∀ e ∈ d1, keyOf e = k → ∃ e' ∈ d2, keyOf e' = k ∧ e'.2 = e.2)
    (h21 : ∀ e' ∈ d2, keyOf e' = k → ∃ e ∈ d1, keyOf e = k) : Get k d1 = Get k d2 := by
  by_cases hpres : ∃ e ∈ d1, keyOf e = k
  · obtain ⟨e, he, hk⟩ := hpres
    obtain ⟨e', he', hk', hv⟩ := h12 e he hk
    obtain ⟨i, hi⟩ := List.mem_iff_getElem?.mp he
    obtain ⟨j, hj⟩ := List.mem_iff_getElem?.mp he'
    have g1 := Get_of_entry hs1 hi
    have g2 := Get_of_entry hs2 hj
    rw [hk] at g1
    rw [hk'] at g2
    rw [g1, g2, hv]
  · have habs1 : ∀ e ∈ d1, keyOf e ≠ k := fun e he hk => hpres ⟨e, he, hk⟩
    have habs2 : ∀ e ∈ d2, keyOf e ≠ k := by
      intro e' he' hk'
      obtain ⟨e, he, hk⟩ := h21 e' he' hk'
      exact habs1 e he hk
    rw [Get_absent hs1 habs1, Get_absent hs2 habs2]

/-- C17 (writes do not disturb other keys): for every strictly ascending Dictionary
`d`, every pair of keys `k` and `k'` with different content, and every value `x`,
the assignment `d[k] = x` returns and `Get(k')` afterwards equals `Get(k')`
before, whether or not `k` or `k'` was present. -/
theorem Get_other_key_unchanged (hashFn : CStr → Nat) (interned : InternPool)
    (d : Dictionary) (k k' : CStr) (x : Double) (hs : StrictAsc d) (hne : k ≠ k') :
    ∃ r, assign hashFn interned d k x = .ok r ∧ Get k' r.2 = Get k' d := by
  obtain ⟨r, i, e, hop, _, he, hk, hsr, hassign⟩ := assign_spec hashFn interned d k x hs
  refine ⟨_, hassign, ?_⟩
  have hsub : ∀ a ∈ r.2.1, keyOf a = k' → a ∈ d := by
    intro a ha hka
    rcases operatorIndex_cases hashFn interned d k hs with
      ⟨_, _, _, _, _, hop'⟩ | ⟨_, _, _, _, _, _, hop'⟩
    · rw [hop] at hop'
      cases hop'
      exact ha
    · rw [hop] at hop'
      cases hop'
      rcases mem_vectorInsert ha with rfl | ha
      · rw [keyOf_make] at hka
        exact absurd hka hne
      · exact ha
  have hsup : ∀ a ∈ d, a ∈ r.2.1 := by
    intro a ha
    rcases operatorIndex_cases hashFn interned d k hs with
      ⟨_, _, _, _, _, hop'⟩ | ⟨_, _, _, _, _, _, hop'⟩
    · rw [hop] at hop'
      cases hop'
      exact ha
    · rw [hop] at hop'
      cases hop'
      exact mem_vectorInsert_of_mem ha
  apply Get_eq_of_same_entry (hsr.storeValue i x) hs
  · intro a ha hka
    obtain ⟨j, hj⟩ := List.mem_iff_getElem?.mp ha
    have hji : j ≠ i := by
      intro hji
      subst hji
      rw [storeValue_getElem?_self r.2.1 j x he] at hj
      cases hj
      exact hne (hk.symm.trans hka)
    rw [storeValue_getElem?_other r.2.1 i j x hji] at hj
    exact ⟨a, hsub a (List.mem_iff_getElem?.mpr ⟨j, hj⟩) hka, hka, rfl⟩
  · intro a ha hka
    obtain ⟨j, hj⟩ := List.mem_iff_getElem?.mp (hsup a ha)
    have hji : j ≠ i := by
      intro hji
      subst hji
      rw [he] at hj
      cases hj
      exact hne (hk.symm.trans hka)
    refine ⟨a, List.mem_iff_getElem?.mpr ⟨j, ?_⟩, hka⟩
    rw [storeValue_getElem?_other r.2.1 i j x hji]
    exact hj

theorem Get_other_key_unchanged_witness :
    StrictAsc dict_amz ∧ str_g ≠ str_m ∧
    ∃ r, assign sumHash [str_a, str_m, str_z] dict_amz str_g { bits := 7 } = .ok r ∧
      Get str_m r.2 = Get str_m dict_amz :=
  ⟨by decide, by decide,
    Get_other_key_unchanged sumHash [str_a, str_m, str_z] dict_amz str_g str_m { bits := 7 }
      (by decide) (by decide)⟩

/-! ## Independence of the insertion order -/

/-- The keys and the freshness of the entries after a call of `operator[]`. -/
theorem operatorIndex_keys (hashFn : CStr → Nat) (interned : InternPool) (d : Dictionary)
    (key : CStr) (hs : StrictAsc d) :
    ∃ r, operatorIndex hashFn interned d key = .ok r ∧
      (∀ k, k ∈ r.2.1.map keyOf ↔ k ∈ d.map keyOf ∨ k = key) ∧
      ((∀ e ∈ d, FreshEntry hashFn e) → ∀ e ∈ r.2.1, FreshEntry hashFn e) := by
  rcases operatorIndex_cases hashFn interned d key hs with
    ⟨i, e, _, he, hk, hop⟩ | ⟨i, _, _, _, _, _, hop⟩
  · refine ⟨_, hop, ?_, fun h => h⟩
    intro k
    constructor
    · exact fun h => Or.inl h
    · rintro (h | rfl)
      · exact h
      · exact List.mem_map.mpr ⟨e, List.mem_iff_getElem?.mpr ⟨i, he⟩, hk⟩
  · refine ⟨_, hop, ?_, ?_⟩
    · intro k
      simp only [List.mem_map]
      constructor
      · rintro ⟨a, ha, rfl⟩
        rcases mem_vectorInsert ha with rfl | ha
        · exact Or.inr (keyOf_make _ _ _ _)
        · exact Or.inl ⟨a, ha, rfl⟩
      · rintro (⟨a, ha, rfl⟩ | rfl)
        · exact ⟨a, mem_vectorInsert_of_mem ha, rfl⟩
        · refine ⟨_, ?_, keyOf_make hashFn interned k Double.zero⟩
          unfold vectorInsert
          exact List.mem_append.mpr (Or.inr (List.mem_cons_self _ _))
    · intro hfresh a ha
      rcases mem_vectorInsert ha with rfl | ha
      · exact ⟨rfl, rfl⟩
      · exact hfresh a ha

/-- The keys and the freshness of the entries after a sequence of `operator[]` calls. -/
theorem indexAll_keys (hashFn : CStr → Nat) (keys : List CStr) :
    ∀ (interned : InternPool) (d : Dictionary), StrictAsc d →
      ∃ r, indexAll hashFn interned d keys = .ok r ∧ StrictAsc r.2 ∧
        (∀ k, k ∈ r.2.map keyOf ↔ k ∈ d.map keyOf ∨ k ∈ keys) ∧
        ((∀ e ∈ d, FreshEntry hashFn e) → ∀ e ∈ r.2, FreshEntry hashFn e) := by
  induction keys with
  | nil => intro interned d hs; exact ⟨_, rfl, hs, by simp, fun h => h⟩
  | cons key ks ih =>
    intro interned d hs
    obtain ⟨r, hr, hkeys, hfresh⟩ := operatorIndex_keys hashFn interned d key hs
    obtain ⟨r0, hr0, hs0⟩ := operatorIndex_StrictAsc hashFn interned d key hs
    rw [hr] at hr0
    cases hr0
    obtain ⟨r2, hr2, hs2, hkeys2, hfresh2⟩ := ih r.1 r.2.1 hs0
    refine ⟨r2, by simp [indexAll, hr, hr2], hs2, ?_, fun h => hfresh2 (hfresh h)⟩
    intro k
    rw [hkeys2 k, hkeys k, List.mem_cons]
    tauto

/-- Two strictly ascending key sequences with the same members are equal. -/
theorem StrictAsc_keys_unique {l1 l2 : List CStr}
    (h1 : l1.Pairwise (fun a b => strcmp a b < 0))
    (h2 : l2.Pairwise (fun a b => strcmp a b < 0))
    (hmem : ∀ k, k ∈ l1 ↔ k ∈ l2) : l1 = l2 := by
  haveI : IsAntisymm CStr (fun a b => strcmp a b < 0) :=
    ⟨fun a b hab hba => by rw [strcmp_antisymm a b] at hba; omega⟩
  have hnd1 : l1.Nodup := List.Pairwise.imp (fun h => strcmp_ne_of_lt h) h1
  have hnd2 : l2.Nodup := List.Pairwise.imp (fun h => strcmp_ne_of_lt h) h2
  exact List.eq_of_perm_of_sorted ((List.perm_ext_iff_of_nodup hnd1 hnd2).mpr hmem) h1 h2

theorem entryView_of_fresh (hashFn : CStr → Nat) (d : Dictionary)
    (h : ∀ e ∈ d, FreshEntry hashFn e) :
    d.map entryView = (d.map keyOf).map (fun k => (k, hashFn k, Double.zero)) := by
  rw [List.map_map]
  apply List.map_congr_left
  intro e he
  obtain ⟨h1, h2⟩ := h e he
  simp [entryView, h1, h2]

/-- Dictionaries with the same keys, holding fresh entries whose strings are interned
in one pool, are equal. -/
theorem eq_of_keys_of_interned (hashFn : CStr → Nat) {interned : InternPool}
    (hnd : interned.Nodup) :
    ∀ (d1 d2 : Dictionary), d1.map keyOf = d2.map keyOf →
      (∀ e ∈ d1, FreshEntry hashFn e ∧ Interned interned e.1.GetString) →
      (∀ e ∈ d2, FreshEntry hashFn e ∧ Interned interned e.1.GetString) → d1 = d2 := by
  intro d1
  induction d1 with
  | nil =>
    intro d2 hk _ _
    cases d2 with
    | nil => rfl
    | cons b bs => simp at hk
  | cons a as ih =>
    intro d2 hk h1 h2
    cases d2 with
    | nil => simp at hk
    | cons b bs =>
      simp only [List.map_cons, List.cons.injEq] at hk
      obtain ⟨hkab, hkrest⟩ := hk
      have htail := ih bs hkrest (fun e he => h1 e (List.mem_cons_of_mem _ he))
        (fun e he => h2 e (List.mem_cons_of_mem _ he))
      obtain ⟨⟨ha1, ha2⟩, ha3⟩ := h1 a (List.mem_cons_self _ _)
      obtain ⟨⟨hb1, hb2⟩, hb3⟩ := h2 b (List.mem_cons_self _ _)
      have haddr := (Interned.addr_eq_iff hnd ha3 hb3).mpr hkab
      have hhash : a.1.GetHash = b.1.GetHash := by rw [ha1, hb1, hkab]
      have hab : a = b := by
        obtain ⟨⟨⟨aa, ac⟩, ah⟩, av⟩ := a
        obtain ⟨⟨⟨ba, bc⟩, bh⟩, bv⟩ := b
        simp only [stringAndHash.GetString, stringAndHash.GetHash, keyOf] at *
        subst haddr
        subst hkab
        subst hhash
        subst ha2
        subst hb2
        rfl
      rw [hab, htail]

/-- C18 (the stored order is independent of the insertion order): for any two finite
sequences of keys that contain the same set of key contents, in any order and
with any repetitions, applying `operator[]` to each key in turn from an empty
Dictionary yields the same sequence of entries (key content, stored hash and
value), namely the distinct keys in ascending `strcmp` order, each with the
hash of its content and value `0.`; and when the second run continues with the
intern pool the first run left, the two entry sequences are equal including the
interned string pointers. -/
theorem indexAll_order_independent (hashFn : CStr → Nat) (keys1 keys2 : List CStr)
    (hsame : ∀ k, k ∈ keys1 ↔ k ∈ keys2) (pool1 pool2 : InternPool) :
    ∃ r1 r2, indexAll hashFn pool1 [] keys1 = .ok r1 ∧
      indexAll hashFn pool2 [] keys2 = .ok r2 ∧
      r1.2.map entryView = r2.2.map entryView ∧
      StrictAsc r1.2 ∧ (∀ k, k ∈ r1.2.map keyOf ↔ k ∈ keys1) ∧
      (∀ e ∈ r1.2, e.1.GetHash = hashFn (keyOf e) ∧ e.2 = Double.zero) ∧
      (pool1.Nodup → pool2 = r1.1 → r1.2 = r2.2) := by
  have hfresh0 : ∀ e ∈ ([] : Dictionary), FreshEntry hashFn e := by simp
  obtain ⟨r1, hr1, hs1, hk1, hf1⟩ := indexAll_keys hashFn keys1 pool1 [] StrictAsc_nil
  obtain ⟨r2, hr2, hs2, hk2, hf2⟩ := indexAll_keys hashFn keys2 pool2 [] StrictAsc_nil
  have hk1' : ∀ k, k ∈ r1.2.map keyOf ↔ k ∈ keys1 := fun k => by simpa using hk1 k
  have hk2' : ∀ k, k ∈ r2.2.map keyOf ↔ k ∈ keys2 := fun k => by simpa using hk2 k
  have hkeys : r1.2.map keyOf = r2.2.map keyOf :=
    StrictAsc_keys_unique hs1 hs2 (fun k => by rw [hk1' k, hk2' k, hsame k])
  refine ⟨r1, r2, hr1, hr2, ?_, hs1, hk1', hf1 hfresh0, ?_⟩
  · rw [entryView_of_fresh hashFn r1.2 (hf1 hfresh0),
      entryView_of_fresh hashFn r2.2 (hf2 hfresh0), hkeys]
  · intro hnd hpool
    subst hpool
    obtain ⟨q1, hq1, hnd1, hi1, _⟩ :=
      indexAll_interned hashFn keys1 pool1 [] StrictAsc_nil hnd (by simp)
    rw [hr1] at hq1
    cases hq1
    obtain ⟨q2, hq2, hnd2, hi2, hmono2⟩ :=
      indexAll_interned hashFn keys2 r1.1 [] StrictAsc_nil hnd1 (by simp)
    rw [hr2] at hq2
    cases hq2
    exact eq_of_keys_of_interned hashFn hnd2 r1.2 r2.2 hkeys
      (fun e he => ⟨hf1 hfresh0 e he, hmono2 _ (hi1 e he)⟩)
      (fun e he => ⟨hf2 hfresh0 e he, hi2 e he⟩)

theorem indexAll_order_independent_witness :
    (∀ k, k ∈ [str_z, str_a, str_m, str_a] ↔ k ∈ [str_a, str_m, str_z]) ∧
    ∃ r1 r2, indexAll sumHash [] [] [str_z, str_a, str_m, str_a] = .ok r1 ∧
      indexAll sumHash [] [] [str_a, str_m, str_z] = .ok r2 ∧
      r1.2.map entryView = r2.2.map entryView :=
  ⟨by intro k; simp only [List.mem_cons, List.mem_singleton, List.not_mem_nil]; tauto,
    match indexAll_order_independent sumHash [str_z, str_a, str_m, str_a] [str_a, str_m, str_z]
      (by intro k; simp only [List.mem_cons, List.mem_singleton, List.not_mem_nil]; tauto)
      [] [] with
    | ⟨r1, r2, h1, h2, h3, _⟩ => ⟨r1, r2, h1, h2, h3⟩⟩

/-! ## Hash lookup under a collision -/

/-- On a strictly ascending dictionary the hash lookup returns the value of the entry
with the least key among those whose stored hash matches. -/
theorem GetHashed_least (d : Dictionary) (h : Nat) (hs : StrictAsc d)
    (hmatch : ∃ e ∈ d, e.1.GetHash = h) :
    ∃ e ∈ d, e.1.GetHash = h ∧ GetHashed h d = .ok e.2 ∧
      ∀ e' ∈ d, e'.1.GetHash = h → e' = e ∨ strcmp (keyOf e) (keyOf e') < 0 := by
  classical
  have hex : ∃ j : Nat, ∃ e : stringAndHash × Double, d[j]? = some e ∧ e.1.GetHash = h := by
    obtain ⟨e, he, hh⟩ := hmatch
    obtain ⟨j, hj⟩ := List.mem_iff_getElem?.mp he
    exact ⟨j, e, hj, hh⟩
  obtain ⟨e, he, hh⟩ := Nat.find_spec hex
  have hmin : ∀ j e', d[j]? = some e' → j < Nat.find hex → e'.1.GetHash ≠ h :=
    fun j e' hj hlt hh' => Nat.find_min hex hlt ⟨e', hj, hh'⟩
  refine ⟨e, List.mem_iff_getElem?.mpr ⟨_, he⟩, hh,
    GetHashed_first d h (Nat.find hex) e he hh hmin, ?_⟩
  intro e' he' hh'
  obtain ⟨j, hj⟩ := List.mem_iff_getElem?.mp he'
  rcases Nat.lt_trichotomy j (Nat.find hex) with hlt | heq | hgt
  · exact absurd hh' (hmin j e' hj hlt)
  · left
    rw [heq, he] at hj
    exact (Option.some.inj hj).symm
  · right
    exact hs.lt_of_lt he hj hgt

/-- C19 as stated fails: in the strictly ascending Dictionary holding "a", "i", "q" with
values 1, 2, 3 and one common hash, the keys "i" < "q" are present, distinct and of
equal hash, but `Get(hash of "q")` returns 1, the value stored under "a", not
2, the value stored under "i". -/
theorem GetHashed_not_value_of_k1 :
    StrictAsc dict_aiq ∧ dict_aiq.map keyOf = [str_a, str_i, str_q] ∧
    (∀ e ∈ dict_aiq, e.1.GetHash = sumHash (keyOf e)) ∧
    strcmp str_i str_q < 0 ∧ sumHash str_i = sumHash str_q ∧
    Get str_i dict_aiq = .ok { bits := 2 } ∧
    GetHashed (sumHash str_q) dict_aiq = .ok { bits := 1 } ∧
    GetHashed (sumHash str_q) dict_aiq ≠ Get str_i dict_aiq := by
  refine ⟨by decide, by decide, by decide, by decide, by decide, by decide, by decide,
    by decide⟩

/-- C19 (amended): for every strictly ascending Dictionary `d` and hash value `h` matched
by at least one entry, `Get(h)` returns the value of the entry whose key content
is least in `strcmp` order among all entries with stored hash `h`; so for two
distinct present keys `k1 < k2` with stored hash `h`, where no key below `k1` has
stored hash `h`, `Get(h)` returns the value stored under `k1`, the value
`Get(k1)` returns, and the entry it reads is not the entry of `k2`. -/
theorem GetHashed_least_key_on_collision (d : Dictionary) (h : Nat) (hs : StrictAsc d)
    (hmatch : ∃ e ∈ d, e.1.GetHash = h) :
    (∃ e ∈ d, e.1.GetHash = h ∧ GetHashed h d = .ok e.2 ∧
      ∀ e' ∈ d, e'.1.GetHash = h → e' = e ∨ strcmp (keyOf e) (keyOf e') < 0) ∧
    (∀ e1 ∈ d, ∀ e2 ∈ d, strcmp (keyOf e1) (keyOf e2) < 0 →
      e1.1.GetHash = h → e2.1.GetHash = h →
      (∀ e' ∈ d, e'.1.GetHash = h → ¬ strcmp (keyOf e') (keyOf e1) < 0) →
      GetHashed h d = .ok e1.2 ∧ Get (keyOf e1) d = .ok e1.2 ∧ e1 ≠ e2) := by
  obtain ⟨e, he, hh, hget, hleast⟩ := GetHashed_least d h hs hmatch
  refine ⟨⟨e, he, hh, hget, hleast⟩, ?_⟩
  intro e1 he1 e2 he2 hlt hh1 hh2 hnone
  have hee : e1 = e := by
    rcases hleast e1 he1 hh1 with h1 | h1
    · exact h1
    · exact absurd h1 (hnone e he hh)
  obtain ⟨i, hi⟩ := List.mem_iff_getElem?.mp he1
  refine ⟨by rw [hee]; exact hget, Get_of_entry hs hi, ?_⟩
  intro h12
  rw [h12, strcmp_self] at hlt
  exact absurd hlt (by decide)

theorem GetHashed_least_key_on_collision_witness :
    StrictAsc dict_aiq ∧ (∃ e ∈ dict_aiq, e.1.GetHash = 1) ∧
    ∃ e ∈ dict_aiq, e.1.GetHash = 1 ∧ GetHashed 1 dict_aiq = .ok e.2 ∧
      ∀ e' ∈ dict_aiq, e'.1.GetHash = 1 → e' = e ∨ strcmp (keyOf e) (keyOf e') < 0 :=
  ⟨by decide, by decide,
    (GetHashed_least_key_on_collision dict_aiq 1 (by decide) (by decide)).1⟩

/-! ## The checker without a collision, and up to the first collision -/

theorem CollidesAt.lift_same {s : List stringAndHash} {rest : Dictionary}
    {h x : stringAndHash × Double} {k : Nat} (hc : CollidesAt s rest k x) :
    CollidesAt s (h :: rest) (k + 1) x := by
  rcases hc with hleft | ⟨m, e', hm, he', hh, hne⟩
  · exact Or.inl hleft
  · exact Or.inr ⟨m + 1, e', by omega, by simpa using he', hh, hne⟩

theorem CollidesAt.lift_inserted {s s' : List stringAndHash} {rest : Dictionary}
    {h x : stringAndHash × Double} {k : Nat} (hmem : ∀ y, y ∈ s' ↔ y ∈ s ∨ y = h.1)
    (hc : CollidesAt s' rest k x) : CollidesAt s (h :: rest) (k + 1) x := by
  rcases hc with ⟨c, hc, hh, hne⟩ | ⟨m, e', hm, he', hh, hne⟩
  · rcases (hmem c).mp hc with hc | rfl
    · exact Or.inl ⟨c, hc, hh, hne⟩
    · exact Or.inr ⟨0, h, by omega, List.getElem?_cons_zero, hh, hne⟩
  · exact Or.inr ⟨m + 1, e', by omega, by simpa using he', hh, hne⟩

theorem HashNew.iff_same {s : List stringAndHash} {rest : Dictionary}
    {h : stringAndHash × Double} {c : stringAndHash} (hc : c ∈ s)
    (hh : c.GetHash = h.1.GetHash) (y : stringAndHash) :
    HashNew s (h :: rest) y ↔ HashNew s rest y := by
  constructor
  · rintro ⟨k, x, hx, hxy, hnone, hearlier⟩
    cases k with
    | zero =>
      simp at hx
      subst hx
      subst hxy
      exact absurd hh (hnone c hc)
    | succ k =>
      simp at hx
      exact ⟨k, x, hx, hxy, hnone,
        fun m e' hm he' => hearlier (m + 1) e' (by omega) (by simpa using he')⟩
  · rintro ⟨k, x, hx, hxy, hnone, hearlier⟩
    refine ⟨k + 1, x, by simpa using hx, hxy, hnone, ?_⟩
    intro m e' hm he'
    cases m with
    | zero =>
      simp at he'
      subst he'
      rw [← hh]
      exact hnone c hc
    | succ m =>
      simp at he'
      exact hearlier m e' (by omega) he'

theorem HashNew.iff_inserted {s s' : List stringAndHash} {rest : Dictionary}
    {h : stringAndHash × Double} (hnone : ∀ c ∈ s, c.GetHash ≠ h.1.GetHash)
    (hmem : ∀ y, y ∈ s' ↔ y ∈ s ∨ y = h.1) (y : stringAndHash) :
    (y ∈ s' ∨ HashNew s' rest y) ↔ (y ∈ s ∨ HashNew s (h :: rest) y) := by
  constructor
  · rintro (hy | ⟨k, x, hx, hxy, hnone', hearlier⟩)
    · rcases (hmem y).mp hy with hy | rfl
      · exact Or.inl hy
      · exact Or.inr ⟨0, h, List.getElem?_cons_zero, rfl, hnone,
          fun m _ hm => absurd hm (Nat.not_lt_zero m)⟩
    · refine Or.inr ⟨k + 1, x, by simpa using hx, hxy,
        fun c hc => hnone' c ((hmem c).mpr (Or.inl hc)), ?_⟩
      intro m e' hm he'
      cases m with
      | zero =>
        simp at he'
        subst he'
        exact hnone' h.1 ((hmem h.1).mpr (Or.inr rfl))
      | succ m =>
        simp at he'
        exact hearlier m e' (by omega) he'
  · rintro (hy | ⟨k, x, hx, hxy, hnone', hearlier⟩)
    · exact Or.inl ((hmem y).mpr (Or.inl hy))
    · cases k with
      | zero =>
        simp at hx
        subst hx
        exact Or.inl ((hmem y).mpr (Or.inr hxy.symm))
      | succ k =>
        simp at hx
        refine Or.inr ⟨k, x, hx, hxy, ?_,
          fun m e' hm he' => hearlier (m + 1) e' (by omega) (by simpa using he')⟩
        intro c hc
        rcases (hmem c).mp hc with hc | rfl
        · exact hnone' c hc
        · exact hearlier 0 h (by omega) List.getElem?_cons_zero

/-- Without a collision the loop does not throw; the set it leaves holds the keys
collected before and the hash-new keys of the dictionary. -/
theorem addKeysLoop_no_collision (interned : InternPool) (hnd : interned.Nodup)
    (d : Dictionary) :
    ∀ s : List stringAndHash, HashSorted s →
      (∀ c ∈ s, Interned interned c.GetString) →
      (∀ e ∈ d, Interned interned e.1.GetString) →
      ¬ Collides s d →
      (addKeysLoop s d).2 = none ∧ HashSorted (addKeysLoop s d).1 ∧
      (∀ c ∈ (addKeysLoop s d).1, Interned interned c.GetString) ∧
      ∀ y, y ∈ (addKeysLoop s d).1 ↔ y ∈ s ∨ HashNew s d y := by
  induction d with
  | nil =>
    intro s hs hsi _ _
    refine ⟨rfl, hs, hsi, ?_⟩
    intro y
    constructor
    · exact fun h => Or.inl h
    · rintro (h | ⟨k, x, hx, _⟩)
      · exact h
      · simp at hx
  | cons e rest ih =>
    intro s hs hsi hdi hcol
    have hei : Interned interned e.1.GetString := hdi e (List.mem_cons_self _ _)
    have hri : ∀ x ∈ rest, Interned interned x.1.GetString :=
      fun x hx => hdi x (List.mem_cons_of_mem _ hx)
    rcases setInsert_spec s e.1 hs with ⟨c, hc, hh, hins⟩ | ⟨hnone, s', hins, hs', hmem⟩
    · have haddr : c.GetString.addr = e.1.GetString.addr := by
        by_contra hne
        apply hcol
        refine ⟨0, e, List.getElem?_cons_zero, Or.inl ⟨c, hc, hh, ?_⟩⟩
        intro hcont
        exact hne ((Interned.addr_eq_iff hnd (hsi c hc) hei).mpr hcont)
      have hstep : addKeysLoop s (e :: rest) = addKeysLoop s rest := by
        simp [addKeysLoop, hins, haddr]
      have hcol' : ¬ Collides s rest := by
        rintro ⟨k, x, hx, hc'⟩
        exact hcol ⟨k + 1, x, by simpa using hx, hc'.lift_same⟩
      obtain ⟨h1, h2, h3, h4⟩ := ih s hs hsi hri hcol'
      rw [hstep]
      refine ⟨h1, h2, h3, ?_⟩
      intro y
      rw [h4 y, HashNew.iff_same hc hh y]
    · have hstep : addKeysLoop s (e :: rest) = addKeysLoop s' rest := by
        simp [addKeysLoop, hins]
      have hsi' : ∀ c ∈ s', Interned interned c.GetString := by
        intro c hc
        rcases (hmem c).mp hc with hc | rfl
        · exact hsi c hc
        · exact hei
      have hcol' : ¬ Collides s' rest := by
        rintro ⟨k, x, hx, hc'⟩
        exact hcol ⟨k + 1, x, by simpa using hx, hc'.lift_inserted hmem⟩
      obtain ⟨h1, h2, h3, h4⟩ := ih s' hs' hsi' hri hcol'
      rw [hstep]
      refine ⟨h1, h2, h3, ?_⟩
      intro y
      rw [h4 y]
      exact HashNew.iff_inserted hnone hmem y

/-- At the first entry that collides the loop throws, and the set it leaves is the one
the loop builds from the entries before that entry, which it passes without
throwing. -/
theorem addKeysLoop_first (interned : InternPool) (hnd : interned.Nodup) (d : Dictionary) :
    ∀ (s : List stringAndHash) (n : Nat) (e : stringAndHash × Double), HashSorted s →
      (∀ c ∈ s, Interned interned c.GetString) →
      (∀ x ∈ d, Interned interned x.1.GetString) →
      d[n]? = some e → CollidesAt s d n e →
      (∀ (k : Nat) (x : stringAndHash × Double), k < n → d[k]? = some x →
        ¬ CollidesAt s d k x) →
      (addKeysLoop s d).2 ≠ none ∧ (addKeysLoop s (d.take n)).2 = none ∧
      (addKeysLoop s d).1 = (addKeysLoop s (d.take n)).1 := by
  induction d with
  | nil => intro s n e _ _ _ hn; simp at hn
  | cons h rest ih =>
    intro s n e hs hsi hdi hn hcol hmin
    have hhi : Interned interned h.1.GetString := hdi h (List.mem_cons_self _ _)
    have hri : ∀ x ∈ rest, Interned interned x.1.GetString :=
      fun x hx => hdi x (List.mem_cons_of_mem _ hx)
    cases n with
    | zero =>
      simp at hn
      subst hn
      rcases hcol with ⟨c', hc', hh', hne⟩ | ⟨m, _, hm, _⟩
      · rcases setInsert_spec s h.1 hs with ⟨c, hc, hh, hins⟩ | ⟨hnone, _⟩
        · have hcc : c' = c := hs.hash_unique hc' hc (hh'.trans hh.symm)
          subst hcc
          have haddr : ¬ c'.GetString.addr = h.1.GetString.addr := by
            intro haddr
            exact hne ((Interned.addr_eq_iff hnd (hsi c' hc) hhi).mp haddr)
          simp [addKeysLoop, hins, haddr]
        · exact absurd hh' (hnone c' hc')
      · omega
    | succ n =>
      simp at hn
      have hhead : ¬ CollidesAt s (h :: rest) 0 h :=
        hmin 0 h (by omega) List.getElem?_cons_zero
      rcases setInsert_spec s h.1 hs with ⟨c, hc, hh, hins⟩ | ⟨hnone, s', hins, hs', hmem⟩
      · have hcont : c.GetString.content = keyOf h := by
          by_contra hne
          exact hhead (Or.inl ⟨c, hc, hh, hne⟩)
        have haddr : c.GetString.addr = h.1.GetString.addr :=
          (Interned.addr_eq_iff hnd (hsi c hc) hhi).mpr hcont
        have hstep : ∀ t, addKeysLoop s (h :: t) = addKeysLoop s t := by
          intro t
          simp [addKeysLoop, hins, haddr]
        have := ih s n e hs hsi hri hn (CollidesAt.tail_same hc hh hcont hcol)
          (fun k x hk hx hc' => hmin (k + 1) x (by omega) (by simpa using hx) hc'.lift_same)
        rw [List.take_succ_cons, hstep, hstep]
        exact this
      · have hstep : ∀ t, addKeysLoop s (h :: t) = addKeysLoop s' t := by
          intro t
          simp [addKeysLoop, hins]
        have hsi' : ∀ c ∈ s', Interned interned c.GetString := by
          intro c hc
          rcases (hmem c).mp hc with hc | rfl
          · exact hsi c hc
          · exact hhi
        have := ih s' n e hs' hsi' hri hn (CollidesAt.tail_inserted hmem hcol)
          (fun k x hk hx hc' =>
            hmin (k + 1) x (by omega) (by simpa using hx) (hc'.lift_inserted hmem))
        rw [List.take_succ_cons, hstep, hstep]
        exact this

/-- A dictionary that holds a collision has a first entry that collides. -/
theorem Collides.first {s : List stringAndHash} {d : Dictionary} (h : Collides s d) :
    ∃ (n : Nat) (e : stringAndHash × Double), d[n]? = some e ∧ CollidesAt s d n e ∧
      ∀ (k : Nat) (x : stringAndHash × Double), k < n → d[k]? = some x →
        ¬ CollidesAt s d k x := by
  classical
  have hex : ∃ n : Nat, ∃ e : stringAndHash × Double, d[n]? = some e ∧ CollidesAt s d n e := h
  obtain ⟨e, he, hc⟩ := Nat.find_spec hex
  exact ⟨Nat.find hex, e, he, hc, fun k x hk hx hcx => Nat.find_min hex hk ⟨x, hx, hcx⟩⟩

/-- A collision at index `k` of the first `n` entries is a collision at index `k` of
the whole dictionary. -/
theorem CollidesAt.of_take {s : List stringAndHash} {d : Dictionary} {n k : Nat}
    {x : stringAndHash × Double} (h : CollidesAt s (d.take n) k x) : CollidesAt s d k x := by
  rcases h with hleft | ⟨m, e', hm, he', hh, hne⟩
  · exact Or.inl hleft
  · refine Or.inr ⟨m, e', hm, ?_, hh, hne⟩
    have hlt : m < (d.take n).length := (List.getElem?_eq_some.mp he').1
    have hmn : m < n := lt_of_lt_of_le hlt (List.length_take_le _ _)
    rw [← List.getElem?_take_of_lt hmn]
    exact he'

/-- The loop throws exactly when the dictionary holds a collision. -/
theorem addKeysLoop_throws_iff (interned : InternPool) (hnd : interned.Nodup) (d : Dictionary)
    (s : List stringAndHash) (hs : HashSorted s)
    (hsi : ∀ c ∈ s, Interned interned c.GetString)
    (hdi : ∀ e ∈ d, Interned interned e.1.GetString) :
    (addKeysLoop s d).2 ≠ none ↔ Collides s d := by
  constructor
  · intro h
    by_contra hcol
    exact h (addKeysLoop_no_collision interned hnd d s hs hsi hdi hcol).1
  · intro hcol
    obtain ⟨first, second, hres, _⟩ := addKeysLoop_reports interned hnd d s hs hsi hdi hcol
    rw [hres]
    simp

theorem getElem?_take_eq_some {d : Dictionary} {n k : Nat} {x : stringAndHash × Double} :
    (d.take n)[k]? = some x ↔ k < n ∧ d[k]? = some x := by
  by_cases hk : k < n
  · rw [List.getElem?_take_of_lt hk]
    simp [hk]
  · rw [List.getElem?_take_eq_none (Nat.le_of_not_lt hk)]
    simp [hk]

/-- The hash-new keys of the first `n` entries. -/
theorem HashNew_take (s : List stringAndHash) (d : Dictionary) (n : Nat) (y : stringAndHash) :
    HashNew s (d.take n) y ↔
      ∃ (k : Nat) (x : stringAndHash × Double), k < n ∧ d[k]? = some x ∧ x.1 = y ∧
        (∀ c ∈ s, c.GetHash ≠ y.GetHash) ∧
        ∀ (m : Nat) (e' : stringAndHash × Double), m < k → d[m]? = some e' →
          e'.1.GetHash ≠ y.GetHash := by
  constructor
  · rintro ⟨k, x, hx, hxy, hnone, hearlier⟩
    obtain ⟨hkn, hx'⟩ := getElem?_take_eq_some.mp hx
    exact ⟨k, x, hkn, hx', hxy, hnone,
      fun m e' hm he' => hearlier m e' hm (getElem?_take_eq_some.mpr ⟨by omega, he'⟩)⟩
  · rintro ⟨k, x, hkn, hx, hxy, hnone, hearlier⟩
    exact ⟨k, x, getElem?_take_eq_some.mpr ⟨hkn, hx⟩, hxy, hnone,
      fun m e' hm he' => hearlier m e' hm (getElem?_take_eq_some.mp he').2⟩

/-- C12 (a detected collision halts further processing): when `AddKeysWhileChecking(d)`
throws (the checker's set ascending by hash, all key strings interned in one
pool), there is a first entry of `d` that collides with a collected key or an
earlier entry; the call on the entries before it does not throw and the call on
the entries up to and including it throws, so the throw happens at that entry;
the checker is left as the call on the entries of `d` strictly before that
entry leaves it; and its set consists of
the keys collected before the call and the hash-new keys of the entries of `d`
strictly before the colliding entry, so nothing at or after it has been added. -/
theorem AddKeysWhileChecking_halts_at_first_collision (interned : InternPool)
    (checker : DictionaryCollisionChecker) (d : Dictionary)
    (hnd : interned.Nodup) (hset : HashSorted checker.collected_keys)
    (hci : ∀ c ∈ checker.collected_keys, Interned interned c.GetString)
    (hdi : ∀ e ∈ d, Interned interned e.1.GetString)
    (hthrow : (checker.AddKeysWhileChecking d).2 ≠ none) :
    ∃ (n : Nat) (e : stringAndHash × Double), d[n]? = some e ∧
      CollidesAt checker.collected_keys d n e ∧
      (∀ (k : Nat) (x : stringAndHash × Double), k < n → d[k]? = some x →
        ¬ CollidesAt checker.collected_keys d k x) ∧
      (checker.AddKeysWhileChecking (d.take n)).2 = none ∧
      (checker.AddKeysWhileChecking (d.take (n + 1))).2 ≠ none ∧
      (checker.AddKeysWhileChecking d).1 = (checker.AddKeysWhileChecking (d.take n)).1 ∧
      ∀ y, y ∈ (checker.AddKeysWhileChecking d).1.collected_keys ↔
        y ∈ checker.collected_keys ∨
        ∃ (k : Nat) (x : stringAndHash × Double), k < n ∧ d[k]? = some x ∧ x.1 = y ∧
          (∀ c ∈ checker.collected_keys, c.GetHash ≠ y.GetHash) ∧
          ∀ (m : Nat) (e' : stringAndHash × Double), m < k → d[m]? = some e' →
            e'.1.GetHash ≠ y.GetHash := by
  have hcol : Collides checker.collected_keys d :=
    (addKeysLoop_throws_iff interned hnd d checker.collected_keys hset hci hdi).mp hthrow
  obtain ⟨n, e, he, hc, hmin⟩ := hcol.first
  obtain ⟨_, hnone, hstate⟩ :=
    addKeysLoop_first interned hnd d checker.collected_keys n e hset hci hdi he hc hmin
  have hti : ∀ x ∈ d.take n, Interned interned x.1.GetString :=
    fun x hx => hdi x (List.mem_of_mem_take hx)
  have hnocol : ¬ Collides checker.collected_keys (d.take n) := by
    rintro ⟨k, x, hx, hcx⟩
    obtain ⟨hkn, hx'⟩ := getElem?_take_eq_some.mp hx
    exact hmin k x hkn hx' hcx.of_take
  obtain ⟨_, _, _, hmem⟩ :=
    addKeysLoop_no_collision interned hnd (d.take n) checker.collected_keys hset hci hti hnocol
  have hupto : (addKeysLoop checker.collected_keys (d.take (n + 1))).2 ≠ none := by
    apply (addKeysLoop_throws_iff interned hnd (d.take (n + 1)) checker.collected_keys hset hci
      (fun x hx => hdi x (List.mem_of_mem_take hx))).mpr
    refine ⟨n, e, getElem?_take_eq_some.mpr ⟨by omega, he⟩, ?_⟩
    rcases hc with hleft | ⟨m, e', hm, he', hh, hne⟩
    · exact Or.inl hleft
    · exact Or.inr ⟨m, e', hm, getElem?_take_eq_some.mpr ⟨by omega, he'⟩, hh, hne⟩
  refine ⟨n, e, he, hc, hmin, ?_, ?_, ?_, ?_⟩
  · simp [DictionaryCollisionChecker.AddKeysWhileChecking, hnone]
  · simpa [DictionaryCollisionChecker.AddKeysWhileChecking] using hupto
  · simp [DictionaryCollisionChecker.AddKeysWhileChecking, hstate]
  · intro y
    simp only [DictionaryCollisionChecker.AddKeysWhileChecking]
    rw [hstate, hmem y, HashNew_take]

theorem AddKeysWhileChecking_halts_at_first_collision_witness :
    ∃ (n : Nat) (e : stringAndHash × Double), dict_aiq[n]? = some e ∧
      (DictionaryCollisionChecker.AddKeysWhileChecking { collected_keys := [] } dict_aiq).1 =
        (DictionaryCollisionChecker.AddKeysWhileChecking { collected_keys := [] }
          (dict_aiq.take n)).1 :=
  match AddKeysWhileChecking_halts_at_first_collision [str_a, str_i, str_q]
      { collected_keys := [] } dict_aiq (by decide) (by decide) (by simp) (by decide)
      (by decide) with
  | ⟨n, e, h1, _, _, _, _, h5, _⟩ => ⟨n, e, h1, h5⟩

/-! ## Audit passes over several dictionaries -/

theorem addKeysLoop_append_none (d1 d2 : Dictionary) :
    ∀ s : List stringAndHash, (addKeysLoop s d1).2 = none →
      addKeysLoop s (d1 ++ d2) = addKeysLoop (addKeysLoop s d1).1 d2 := by
  induction d1 with
  | nil => intro s _; rfl
  | cons e rest ih =>
    intro s h
    simp only [List.cons_append, addKeysLoop] at h ⊢
    split
    · next hflag =>
      rw [if_pos hflag] at h
      split
      · next haddr =>
        rw [if_pos haddr] at h
        simp at h
      · next haddr =>
        rw [if_neg haddr] at h
        exact ih _ h
    · next hflag =>
      rw [if_neg hflag] at h
      exact ih _ h

theorem addKeysLoop_append_some (d1 d2 : Dictionary) :
    ∀ s : List stringAndHash, (addKeysLoop s d1).2 ≠ none →
      addKeysLoop s (d1 ++ d2) = addKeysLoop s d1 := by
  induction d1 with
  | nil => intro s h; simp [addKeysLoop] at h
  | cons e rest ih =>
    intro s h
    simp only [List.cons_append, addKeysLoop] at h ⊢
    split
    · next hflag =>
      rw [if_pos hflag] at h
      split
      · next haddr => rfl
      · next haddr =>
        rw [if_neg haddr] at h
        exact ih _ h
    · next hflag =>
      rw [if_neg hflag] at h
      exact ih _ h

/-- An audit pass over several dictionaries does what the loop does on their
concatenation. -/
theorem feedAll_eq_addKeysLoop (ds : List Dictionary) :
    ∀ checker : DictionaryCollisionChecker,
      feedAll checker ds =
        ({ collected_keys := (addKeysLoop checker.collected_keys ds.flatten).1 },
          (addKeysLoop checker.collected_keys ds.flatten).2) := by
  induction ds with
  | nil => intro checker; rfl
  | cons d rest ih =>
    intro checker
    simp only [feedAll, DictionaryCollisionChecker.AddKeysWhileChecking, List.flatten_cons]
    cases hres : (addKeysLoop checker.collected_keys d).2 with
    | none =>
      rw [addKeysLoop_append_none d rest.flatten _ hres]
      simp only
      rw [ih]
    | some err =>
      rw [addKeysLoop_append_some d rest.flatten _ (by rw [hres]; simp)]
      simp [hres]

/-- With nothing collected, a dictionary holds a collision exactly when two of its
entries have equal hash and different strings. -/
theorem Collides_nil_iff (d : Dictionary) :
    Collides [] d ↔ ∃ a ∈ d, ∃ b ∈ d, a.1.GetHash = b.1.GetHash ∧ keyOf a ≠ keyOf b := by
  constructor
  · rintro ⟨n, e, he, ⟨c, hc, _⟩ | ⟨m, e', _, he', hh, hne⟩⟩
    · simp at hc
    · exact ⟨e', List.mem_iff_getElem?.mpr ⟨m, he'⟩, e, List.mem_iff_getElem?.mpr ⟨n, he⟩,
        hh, hne⟩
  · rintro ⟨a, ha, b, hb, hh, hne⟩
    obtain ⟨i, hi⟩ := List.mem_iff_getElem?.mp ha
    obtain ⟨j, hj⟩ := List.mem_iff_getElem?.mp hb
    rcases Nat.lt_trichotomy i j with hlt | heq | hgt
    · exact ⟨j, b, hj, Or.inr ⟨i, a, hlt, hi, hh, hne⟩⟩
    · subst heq
      rw [hi] at hj
      cases hj
      exact absurd rfl hne
    · exact ⟨i, a, hi, Or.inr ⟨j, b, hgt, hj, hh.symm, fun h => hne h.symm⟩⟩

/-- An audit pass by a fresh checker throws exactly when two keys of the fed
dictionaries have equal hash and different strings. -/
theorem feedAll_throws_iff (interned : InternPool) (hnd : interned.Nodup)
    (ds : List Dictionary) (hdi : ∀ d ∈ ds, ∀ e ∈ d, Interned interned e.1.GetString) :
    (feedAll { collected_keys := [] } ds).2 ≠ none ↔
      ∃ d1 ∈ ds, ∃ d2 ∈ ds, ∃ a ∈ d1, ∃ b ∈ d2,
        a.1.GetHash = b.1.GetHash ∧ keyOf a ≠ keyOf b := by
  rw [feedAll_eq_addKeysLoop]
  simp only
  have hfi : ∀ e ∈ ds.flatten, Interned interned e.1.GetString := by
    intro e he
    obtain ⟨d, hd, hed⟩ := List.mem_flatten.mp he
    exact hdi d hd e hed
  rw [addKeysLoop_throws_iff interned hnd ds.flatten [] (by simp [HashSorted]) (by simp) hfi,
    Collides_nil_iff]
  constructor
  · rintro ⟨a, ha, b, hb, hh, hne⟩
    obtain ⟨d1, hd1, ha1⟩ := List.mem_flatten.mp ha
    obtain ⟨d2, hd2, hb2⟩ := List.mem_flatten.mp hb
    exact ⟨d1, hd1, d2, hd2, a, ha1, b, hb2, hh, hne⟩
  · rintro ⟨d1, hd1, d2, hd2, a, ha1, b, hb2, hh, hne⟩
    exact ⟨a, List.mem_flatten.mpr ⟨d1, hd1, ha1⟩, b, List.mem_flatten.mpr ⟨d2, hd2, hb2⟩,
      hh, hne⟩

/-- C11 (no false alarm): with all key strings interned in one pool, (1) a call of
`AddKeysWhileChecking(d)` throws only when some entry of `d` has the hash of a
collected key or of an earlier entry of `d` and a different string; (2) for every
sequence of Dictionaries fed to a fresh checker such that any two keys among them
with equal hash have equal string content, no call throws. -/
theorem AddKeysWhileChecking_no_false_alarm (interned : InternPool) (hnd : interned.Nodup) :
    (∀ (checker : DictionaryCollisionChecker) (d : Dictionary),
      HashSorted checker.collected_keys →
      (∀ c ∈ checker.collected_keys, Interned interned c.GetString) →
      (∀ e ∈ d, Interned interned e.1.GetString) →
      (checker.AddKeysWhileChecking d).2 ≠ none →
      ∃ (n : Nat) (e : stringAndHash × Double), d[n]? = some e ∧
        ((∃ c ∈ checker.collected_keys, c.GetHash = e.1.GetHash ∧
            c.GetString.content ≠ keyOf e) ∨
         (∃ (m : Nat) (e' : stringAndHash × Double), m < n ∧ d[m]? = some e' ∧
            e'.1.GetHash = e.1.GetHash ∧ keyOf e' ≠ keyOf e))) ∧
    (∀ ds : List Dictionary,
      (∀ d ∈ ds, ∀ e ∈ d, Interned interned e.1.GetString) →
      (∀ d1 ∈ ds, ∀ d2 ∈ ds, ∀ a ∈ d1, ∀ b ∈ d2,
        a.1.GetHash = b.1.GetHash → keyOf a = keyOf b) →
      (feedAll { collected_keys := [] } ds).2 = none) := by
  constructor
  · intro checker d hset hci hdi hthrow
    exact (addKeysLoop_throws_iff interned hnd d checker.collected_keys hset hci hdi).mp hthrow
  · intro ds hdi hsame
    by_contra hthrow
    obtain ⟨d1, hd1, d2, hd2, a, ha, b, hb, hh, hne⟩ :=
      (feedAll_throws_iff interned hnd ds hdi).mp hthrow
    exact hne (hsame d1 hd1 d2 hd2 a ha b hb hh)

theorem AddKeysWhileChecking_no_false_alarm_witness :
    [str_abc].Nodup ∧ (∀ d ∈ [dict_abc, dict_abc], ∀ e ∈ d, Interned [str_abc] e.1.GetString) ∧
    (feedAll { collected_keys := [] } [dict_abc, dict_abc]).2 = none :=
  ⟨by decide, by decide,
    (AddKeysWhileChecking_no_false_alarm [str_abc] (by decide)).2 [dict_abc, dict_abc]
      (by decide) (by decide)⟩

/-- C20 (the audit verdict does not depend on the feeding order): for every finite
collection of Dictionaries (all key strings interned in one pool) and any two
orderings of it, feeding them one by one to a fresh checker throws at some call
under the first ordering exactly when it throws at some call under the second,
namely exactly when two keys with different strings anywhere in the collection
have equal hash. -/
theorem feedAll_order_independent (interned : InternPool) (hnd : interned.Nodup)
    (ds1 ds2 : List Dictionary) (hperm : ds1.Perm ds2)
    (hdi : ∀ d ∈ ds1, ∀ e ∈ d, Interned interned e.1.GetString) :
    ((feedAll { collected_keys := [] } ds1).2 ≠ none ↔
      (feedAll { collected_keys := [] } ds2).2 ≠ none) ∧
    ((feedAll { collected_keys := [] } ds1).2 ≠ none ↔
      ∃ d1 ∈ ds1, ∃ d2 ∈ ds1, ∃ a ∈ d1, ∃ b ∈ d2,
        a.1.GetHash = b.1.GetHash ∧ keyOf a ≠ keyOf b) := by
  have hdi2 : ∀ d ∈ ds2, ∀ e ∈ d, Interned interned e.1.GetString :=
    fun d hd => hdi d (hperm.mem_iff.mpr hd)
  refine ⟨?_, feedAll_throws_iff interned hnd ds1 hdi⟩
  rw [feedAll_throws_iff interned hnd ds1 hdi, feedAll_throws_iff interned hnd ds2 hdi2]
  constructor
  · rintro ⟨d1, hd1, d2, hd2, rest⟩
    exact ⟨d1, hperm.mem_iff.mp hd1, d2, hperm.mem_iff.mp hd2, rest⟩
  · rintro ⟨d1, hd1, d2, hd2, rest⟩
    exact ⟨d1, hperm.mem_iff.mpr hd1, d2, hperm.mem_iff.mpr hd2, rest⟩

theorem feedAll_order_independent_witness :
    [dict_amz, dict_ai_shared].Perm [dict_ai_shared, dict_amz] ∧
    ((feedAll { collected_keys := [] } [dict_amz, dict_ai_shared]).2 ≠ none ↔
      (feedAll { collected_keys := [] } [dict_ai_shared, dict_amz]).2 ≠ none) :=
  ⟨List.Perm.swap _ _ _,
    (feedAll_order_independent [str_a, str_m, str_z, str_i] (by decide)
      [dict_amz, dict_ai_shared] [dict_ai_shared, dict_amz] (List.Perm.swap _ _ _)
      (by decide)).1⟩

end DictionaryCpp
